import Mathlib

/-!
Verification of the streaming object-storage engine in
`backend/btrixcloud/storages.py` (browsertrix-cloud).

The file shallowly embeds the pure control/data flow of:
  * `do_upload_multipart` and its inner `get_next_chunk` helper
    (multipart chunked upload with abort-on-failure),
  * `_sync_get_logs` with its helpers `stream_log_bytes_as_line_dicts`
    and `stream_json_lines` (k-way timestamp merge of WACZ log streams),
  * `_sync_dl` (streaming multi-WACZ zip member list with the
    `datapackage.json` manifest member).

Remote S3 calls are modelled as an oracle (`S3Client`) returning
`Except`-valued results, and each run records the trace of requests
actually issued (`S3Event`).  Bytes are modelled as `Nat`, byte strings
as `List Nat`, and a chunked input stream as `List (List Nat)`.
-/

/-- Remote S3 requests issued during one `do_upload_multipart` run.
Each constructor records the arguments the code passes to the
corresponding `aiobotocore` client call. -/
inductive S3Event where
  | createMultipart : S3Event
  | uploadPart (uploadId : String) (partNumber : Nat) (body : List Nat) : S3Event
  | completeMultipart (uploadId : String) (parts : List (Nat × String)) : S3Event
  | abortMultipart (uploadId : String) : S3Event
deriving DecidableEq, Repr

/-- Oracle for the S3 client used by `do_upload_multipart`: the outcome of
`create_multipart_upload` (returning the UploadId), of each
`upload_part` call (as a function of the part number and body, returning
the ETag), of `complete_multipart_upload` and of
`abort_multipart_upload`.  `Except.error` models the call raising an
exception. -/
structure S3Client where
  create_multipart_upload : Except String String
  upload_part : Nat → List Nat → Except String String
  complete_multipart_upload : List (Nat × String) → Except String Unit
  abort_multipart_upload : Except String Unit

/-- Result of one `do_upload_multipart` run: `ok` models `return True`,
`failed` models `return False` (original error caught, abort succeeded),
and `raised err context` models an exception escaping the function —
`err` is the escaping error and `context` is the previously-caught error
attached to it by Python exception chaining (PEP 3134 `__context__`),
so both are reported to the caller. -/
inductive UploadOutcome where
  | ok : UploadOutcome
  | failed : UploadOutcome
  | raised (err : String) (context : Option String) : UploadOutcome
deriving DecidableEq, Repr

/-- Loop body of `get_next_chunk`: `async for chunk in file_` appending
into `bufs` and accumulating `total`, breaking once `total >= min_size`.
Returns the accumulated buffers and the rest of the stream. -/
def get_next_chunk_go (min_size : Nat) :
    List (List Nat) → List (List Nat) → Nat → List (List Nat) × List (List Nat)
  | [], bufs, _ => (bufs, [])
  | c :: cs, bufs, total =>
    if min_size ≤ total + c.length then (bufs ++ [c], cs)
    else get_next_chunk_go min_size cs (bufs ++ [c]) (total + c.length)

/-- `get_next_chunk(file_, min_size)`: accumulate chunks from the stream
until at least `min_size` bytes are gathered (or the stream is
exhausted) and return their concatenation (`b"".join(bufs)`, which also
covers the `len(bufs) == 1` fast path) together with the unconsumed rest
of the stream (the iterator state left in `file_`). -/
def get_next_chunk (min_size : Nat) (file : List (List Nat)) :
    List Nat × List (List Nat) :=
  let r := get_next_chunk_go min_size file [] 0
  (r.1.flatten, r.2)

/-- The `while True` loop of `do_upload_multipart`, starting at part
number `part_number`: fetch the next accumulated chunk, upload it as the
next part, record `(PartNumber, ETag)`, stop after the first chunk whose
size is below `min_size`.  Fuelled (the source loop does not terminate
when `min_size = 0`); `none` means the fuel ran out.  Returns the trace
of `upload_part` requests issued and either the recorded parts list (on
normal exit) or the error raised by a failing `upload_part` call. -/
def upload_loop (client : S3Client) (upload_id : String) (min_size : Nat) :
    Nat → List (List Nat) → Nat →
    Option (List S3Event × Except String (List (Nat × String)))
  | 0, _, _ => none
  | fuel + 1, file, part_number =>
    let c := get_next_chunk min_size file
    match client.upload_part part_number c.1 with
    | Except.error e =>
      some ([S3Event.uploadPart upload_id part_number c.1], Except.error e)
    | Except.ok etag =>
      if c.1.length < min_size then
        some ([S3Event.uploadPart upload_id part_number c.1],
          Except.ok [(part_number, etag)])
      else
        match upload_loop client upload_id min_size fuel c.2 (part_number + 1) with
        | none => none
        | some (evs, Except.error e) =>
          some (S3Event.uploadPart upload_id part_number c.1 :: evs, Except.error e)
        | some (evs, Except.ok ps) =>
          some (S3Event.uploadPart upload_id part_number c.1 :: evs,
            Except.ok ((part_number, etag) :: ps))

/-- `do_upload_multipart` after storage resolution: create the multipart
upload, run the upload loop from part number 1, then either complete it
(success) or — on any failure inside the `try` block — abort it in the
`except` handler.  An abort call that itself raises escapes the handler
carrying the original error as its Python context.  Returns the full
request trace and the outcome; `none` only if the loop fuel
(`file.length + 1`, sufficient whenever `0 < min_size`) ran out. -/
def do_upload_multipart (client : S3Client) (min_size : Nat)
    (file : List (List Nat)) : Option (List S3Event × UploadOutcome) :=
  match client.create_multipart_upload with
  | Except.error e => some ([S3Event.createMultipart], UploadOutcome.raised e none)
  | Except.ok upload_id =>
    match upload_loop client upload_id min_size (file.length + 1) file 1 with
    | none => none
    | some (evs, Except.ok parts) =>
      match client.complete_multipart_upload parts with
      | Except.ok _ =>
        some (S3Event.createMultipart ::
          evs ++ [S3Event.completeMultipart upload_id parts], UploadOutcome.ok)
      | Except.error e =>
        let tr := S3Event.createMultipart ::
          evs ++ [S3Event.completeMultipart upload_id parts,
            S3Event.abortMultipart upload_id]
        match client.abort_multipart_upload with
        | Except.ok _ => some (tr, UploadOutcome.failed)
        | Except.error a => some (tr, UploadOutcome.raised a (some e))
    | some (evs, Except.error e) =>
      let tr := S3Event.createMultipart :: evs ++ [S3Event.abortMultipart upload_id]
      match client.abort_multipart_upload with
      | Except.ok _ => some (tr, UploadOutcome.failed)
      | Except.error a => some (tr, UploadOutcome.raised a (some e))

/-- Part numbers of the `upload_part` requests in a trace, in order. -/
def partNumbersOf (tr : List S3Event) : List Nat :=
  tr.filterMap fun e =>
    match e with
    | S3Event.uploadPart _ pn _ => some pn
    | _ => none

/-- Bodies of the `upload_part` requests in a trace, in order. -/
def partBodiesOf (tr : List S3Event) : List (List Nat) :=
  tr.filterMap fun e =>
    match e with
    | S3Event.uploadPart _ _ body => some body
    | _ => none

/-- The `parts` list the Python code accumulates during a run: one
`(PartNumber, ETag)` pair appended after each successful `upload_part`
call, in request order — reconstructed from the request trace through
the (deterministic) client oracle. -/
def recorded_parts (client : S3Client) (tr : List S3Event) :
    List (Nat × String) :=
  tr.filterMap fun e =>
    match e with
    | S3Event.uploadPart _ pn body =>
      match client.upload_part pn body with
      | Except.ok etag => some (pn, etag)
      | Except.error _ => none
    | _ => none

/-! Log merging: `_sync_get_logs` and its helpers. -/

/-- One parsed JSON log line, as consumed by the merge and the filters.
Timestamps are modelled as naturals (the code compares the raw
`timestamp` values of the parsed JSON dicts with a total order). -/
structure LogRecord where
  timestamp : Nat
  logLevel : String
  context : String
deriving DecidableEq, Repr

/-- Index and head record of the non-empty source list whose head has
the minimal timestamp, ties resolved in favour of the earlier source —
the comparison `heapq.merge` performs on its `(key, order, value)` heap
entries. -/
def bestIdx : List (List LogRecord) → Option (Nat × LogRecord)
  | [] => none
  | [] :: rest => (bestIdx rest).map fun p => (p.1 + 1, p.2)
  | (h :: _) :: rest =>
    match bestIdx rest with
    | none => some (0, h)
    | some (i, r) =>
      if r.timestamp < h.timestamp then some (i + 1, r) else some (0, h)

/-- Drop the head of the `i`-th source list (advance that iterator). -/
def removeHead : Nat → List (List LogRecord) → List (List LogRecord)
  | _, [] => []
  | 0, l :: rest => l.tail :: rest
  | n + 1, l :: rest => l :: removeHead n rest

/-- Total number of records pending across all source lists. -/
def sumLen (lists : List (List LogRecord)) : Nat :=
  (lists.map List.length).sum

/-- Fuelled k-way merge: repeatedly emit the minimal-timestamp head and
advance the source it came from.  `sumLen lists` fuel is exact. -/
def mergeAllGo : Nat → List (List LogRecord) → List LogRecord
  | 0, _ => []
  | fuel + 1, lists =>
    match bestIdx lists with
    | none => []
    | some (i, r) => r :: mergeAllGo fuel (removeHead i lists)

/-- `heapq.merge(*log_generators, key=lambda entry: entry["timestamp"])`:
the stable k-way merge of the per-WACZ record streams. -/
def mergeAll (lists : List (List LogRecord)) : List LogRecord :=
  mergeAllGo (sumLen lists) lists

/-- Filter test of `stream_json_lines`: a record is dropped when
`log_levels` is non-empty (truthy) and its `logLevel` is not in it, or
when `contexts` is non-empty and its `context` is not in it. -/
def passes_filters (log_levels contexts : List String) (r : LogRecord) : Bool :=
  (log_levels.isEmpty || log_levels.contains r.logLevel) &&
  (contexts.isEmpty || contexts.contains r.context)

/-- `stream_json_lines(iterator, log_levels, contexts)`: yield the
records of the merged iterator that pass both filters (the final
serialization of each yielded dict to a JSON-line byte string is not
modelled; the yielded records are). -/
def stream_json_lines (log_levels contexts : List String)
    (iterator : List LogRecord) : List LogRecord :=
  iterator.filter (passes_filters log_levels contexts)

/-- Record-level core of `_sync_get_logs`: `log_generators` holds, per
WACZ file, the concatenated record streams of its `logs/` entries; the
result is the filtered k-way merge by timestamp. -/
def sync_get_logs (log_generators : List (List LogRecord))
    (log_levels contexts : List String) : List LogRecord :=
  stream_json_lines log_levels contexts (mergeAll log_generators)

/-- Timestamp order on records used by the merge invariants. -/
def tsLE (a b : LogRecord) : Prop :=
  a.timestamp ≤ b.timestamp

instance : DecidableRel tsLE := fun a b => Nat.decLe a.timestamp b.timestamp

/-! Incremental line splitting: `stream_log_bytes_as_line_dicts`. -/

/-- Python's `str.split("\n")` on a character list: always returns at
least one piece; pieces contain no newline. -/
def splitLines : List Char → List (List Char)
  | [] => [[]]
  | c :: cs =>
    if c = '\n' then [] :: splitLines cs
    else
      match splitLines cs with
      | [] => [[c]]
      | l :: ls => (c :: l) :: ls

/-- Python's `chunk_by_line.pop()`: the list without its last element,
together with that last element (`[]` for the never-occurring empty
input). -/
def popLastLine : List (List Char) → List (List Char) × List Char
  | [] => ([], [])
  | [x] => ([], x)
  | x :: y :: t =>
    let r := popLastLine (y :: t)
    (x :: r.1, r.2)

/-- `stream_log_bytes_as_line_dicts(stream_generator)` with the held-back
partial line `last_line` made explicit (initially empty): prepend the
held line to each decoded chunk, split on newlines, keep the trailing
piece for the next round, and yield `parse` successes of the non-empty
complete lines; when the stream ends, parse the held line if non-empty.
`parse` abstracts `_parse_json` (`json.loads` returning `none` on a
`JSONDecodeError`, which the code logs and drops). -/
def stream_log_bytes_as_line_dicts {α : Type} (parse : List Char → Option α) :
    List (List Char) → List Char → List α
  | [], last_line =>
    if last_line.isEmpty then [] else (parse last_line).toList
  | next_chunk :: rest, last_line =>
    let p := popLastLine (splitLines (last_line ++ next_chunk))
    (p.1.filterMap fun line => if line.isEmpty then none else parse line)
      ++ stream_log_bytes_as_line_dicts parse rest p.2

/-! Streaming zip download: `_sync_dl`. -/

/-- Output file descriptor (`CrawlFileOut` in models.py): the fields
serialized by `file_.dict()` into the manifest, in declaration order —
`name`, `path`, `hash`, `size` and the `Optional[str]` field
`crawlId`. -/
structure CrawlFileOut where
  name : String
  path : String
  hash : String
  size : Nat
  crawlId : Option String
deriving DecidableEq, Repr

/-- Minimal JSON value model for the generated `datapackage.json`
document (`json.dumps` input shape); `null` renders Python `None`. -/
inductive Json where
  | null : Json
  | str (s : String) : Json
  | num (n : Nat) : Json
  | arr (elems : List Json) : Json
  | obj (fields : List (String × Json)) : Json

/-- Serialization of an `Optional[str]` value: `None` becomes JSON
`null`. -/
def jsonOfOptStr : Option String → Json
  | none => Json.null
  | some s => Json.str s

/-- `file_.dict()` for a `CrawlFileOut`: pydantic serializes every
declared field, including `crawlId`. -/
def crawlFileDict (f : CrawlFileOut) : Json :=
  Json.obj [("name", Json.str f.name), ("path", Json.str f.path),
    ("hash", Json.str f.hash), ("size", Json.num f.size),
    ("crawlId", jsonOfOptStr f.crawlId)]

/-- The `file_.path = file_.name` mutation `_sync_dl` applies to every
member before building the manifest. -/
def set_path (f : CrawlFileOut) : CrawlFileOut :=
  { f with path := f.name }

/-- The `datapackage` document:
`{"profile": "multi-wacz-package", "resources": [file_.dict(), ...]}`. -/
def datapackage (all_files : List CrawlFileOut) : Json :=
  Json.obj [("profile", Json.str "multi-wacz-package"),
    ("resources", Json.arr (all_files.map crawlFileDict))]

/-- Data source of an emitted zip member: either the remote object
`key + name` fetched chunk-wise via `get_file`, or the in-memory
manifest bytes `(datapackage,)`. -/
inductive MemberSource where
  | remote (objectName : String) : MemberSource
  | manifest (doc : Json) : MemberSource

/-- One element of the `member_files()` generator: the 5-tuple
`(name, modified_at, perms, NO_COMPRESSION_64, data)` handed to
`stream_zip`.  `modified_at` is the fixed `datetime(1980, 1, 1)` and
`perms` the fixed `0o664`. -/
structure ZipMember where
  name : String
  modified_at : Nat × Nat × Nat
  perms : Nat
  source : MemberSource

/-- The `member_files()` generator: every real member in input order,
then the single synthetic `datapackage.json` member carrying the
manifest document. -/
def member_files (all_files : List CrawlFileOut) : List ZipMember :=
  (all_files.map fun f =>
    { name := f.name, modified_at := (1980, 1, 1), perms := 0o664,
      source := MemberSource.remote f.name }) ++
  [{ name := "datapackage.json", modified_at := (1980, 1, 1), perms := 0o664,
      source := MemberSource.manifest (datapackage all_files) }]

/-- Member-level core of `_sync_dl`: set `path := name` on every file,
build the manifest from the mutated records, and emit the member
sequence fed to `stream_zip`. -/
def sync_dl (all_files : List CrawlFileOut) : List ZipMember :=
  member_files (all_files.map set_path)

/-! Helper lemmas about `get_next_chunk` and `upload_loop`. -/

theorem get_next_chunk_nil (min_size : Nat) :
    get_next_chunk min_size [] = ([], []) := rfl

theorem get_next_chunk_go_rest_lt (min_size : Nat) :
    ∀ (file bufs : List (List Nat)) (total : Nat), file ≠ [] →
      (get_next_chunk_go min_size file bufs total).2.length < file.length := by
  intro file
  induction file with
  | nil => intro bufs total h; exact absurd rfl h
  | cons c cs ih =>
    intro bufs total _
    rw [get_next_chunk_go]
    by_cases hc : min_size ≤ total + c.length
    · simp [hc, Nat.lt_succ_of_le]
    · simp only [if_neg hc]
      cases cs with
      | nil => simp [get_next_chunk_go]
      | cons d ds =>
        exact Nat.lt_trans (ih _ _ (by simp)) (Nat.lt_succ_self _)

theorem get_next_chunk_rest_lt (min_size : Nat) (file : List (List Nat))
    (h : file ≠ []) :
    (get_next_chunk min_size file).2.length < file.length :=
  get_next_chunk_go_rest_lt min_size file [] 0 h

theorem upload_loop_zero (client : S3Client) (uid : String) (min_size : Nat)
    (file : List (List Nat)) (pn : Nat) :
    upload_loop client uid min_size 0 file pn = none := rfl

theorem upload_loop_succ_error (client : S3Client) (uid : String)
    (min_size fuel : Nat) (file : List (List Nat)) (pn : Nat) (e : String)
    (hup : client.upload_part pn (get_next_chunk min_size file).1
      = Except.error e) :
    upload_loop client uid min_size (fuel + 1) file pn
      = some ([S3Event.uploadPart uid pn (get_next_chunk min_size file).1],
          Except.error e) := by
  simp only [upload_loop, hup]

theorem upload_loop_succ_break (client : S3Client) (uid : String)
    (min_size fuel : Nat) (file : List (List Nat)) (pn : Nat) (etag : String)
    (hup : client.upload_part pn (get_next_chunk min_size file).1
      = Except.ok etag)
    (hsmall : (get_next_chunk min_size file).1.length < min_size) :
    upload_loop client uid min_size (fuel + 1) file pn
      = some ([S3Event.uploadPart uid pn (get_next_chunk min_size file).1],
          Except.ok [(pn, etag)]) := by
  simp only [upload_loop, hup, if_pos hsmall]

theorem upload_loop_succ_cont (client : S3Client) (uid : String)
    (min_size fuel : Nat) (file : List (List Nat)) (pn : Nat) (etag : String)
    (hup : client.upload_part pn (get_next_chunk min_size file).1
      = Except.ok etag)
    (hsmall : ¬ (get_next_chunk min_size file).1.length < min_size) :
    upload_loop client uid min_size (fuel + 1) file pn
      = match upload_loop client uid min_size fuel
          (get_next_chunk min_size file).2 (pn + 1) with
        | none => none
        | some (evs, Except.error e) =>
          some (S3Event.uploadPart uid pn (get_next_chunk min_size file).1 :: evs,
            Except.error e)
        | some (evs, Except.ok ps) =>
          some (S3Event.uploadPart uid pn (get_next_chunk min_size file).1 :: evs,
            Except.ok ((pn, etag) :: ps)) := by
  simp only [upload_loop, hup, if_neg hsmall]

theorem upload_loop_fuel_sufficient (client : S3Client) (uid : String)
    (min_size : Nat) (hm : 0 < min_size) :
    ∀ (fuel : Nat) (file : List (List Nat)) (pn : Nat), file.length < fuel →
      upload_loop client uid min_size fuel file pn ≠ none := by
  intro fuel
  induction fuel with
  | zero => intro file pn h; omega
  | succ n ih =>
    intro file pn hlt
    cases hup : client.upload_part pn (get_next_chunk min_size file).1 with
    | error e => rw [upload_loop_succ_error client uid min_size n file pn e hup]; simp
    | ok etag =>
      by_cases hsmall : (get_next_chunk min_size file).1.length < min_size
      · rw [upload_loop_succ_break client uid min_size n file pn etag hup hsmall]
        simp
      · rw [upload_loop_succ_cont client uid min_size n file pn etag hup hsmall]
        have hfile : file ≠ [] := by
          intro hf
          rw [hf, get_next_chunk_nil] at hsmall
          simp at hsmall
          omega
        have hrest : (get_next_chunk min_size file).2.length < n := by
          have := get_next_chunk_rest_lt min_size file hfile
          omega
        cases hrec : upload_loop client uid min_size n
            (get_next_chunk min_size file).2 (pn + 1) with
        | none => exact absurd hrec (ih _ _ hrest)
        | some r =>
          rcases r with ⟨evs, r⟩
          cases r with
          | error e => simp
          | ok ps => simp

theorem upload_loop_events_shape (client : S3Client) (uid : String)
    (min_size : Nat) :
    ∀ (fuel : Nat) (file : List (List Nat)) (pn : Nat) evs r,
      upload_loop client uid min_size fuel file pn = some (evs, r) →
      ∀ ev ∈ evs, ∃ pnum body, ev = S3Event.uploadPart uid pnum body := by
  intro fuel
  induction fuel with
  | zero =>
    intro file pn evs r h
    rw [upload_loop_zero] at h
    exact absurd h (by simp)
  | succ n ih =>
    intro file pn evs r h
    cases hup : client.upload_part pn (get_next_chunk min_size file).1 with
    | error e =>
      rw [upload_loop_succ_error client uid min_size n file pn e hup] at h
      simp only [Option.some.injEq, Prod.mk.injEq] at h
      intro ev hev
      rw [← h.1] at hev
      simp only [List.mem_singleton] at hev
      exact ⟨pn, _, hev⟩
    | ok etag =>
      by_cases hsmall : (get_next_chunk min_size file).1.length < min_size
      · rw [upload_loop_succ_break client uid min_size n file pn etag hup hsmall] at h
        simp only [Option.some.injEq, Prod.mk.injEq] at h
        intro ev hev
        rw [← h.1] at hev
        simp only [List.mem_singleton] at hev
        exact ⟨pn, _, hev⟩
      · rw [upload_loop_succ_cont client uid min_size n file pn etag hup hsmall] at h
        cases hrec : upload_loop client uid min_size n
            (get_next_chunk min_size file).2 (pn + 1) with
        | none => rw [hrec] at h; exact absurd h (by simp)
        | some r2 =>
          rcases r2 with ⟨evs2, r2⟩
          rw [hrec] at h
          cases r2 with
          | error e =>
            simp only [Option.some.injEq, Prod.mk.injEq] at h
            intro ev hev
            rw [← h.1] at hev
            rcases List.mem_cons.mp hev with h1 | h2
            · exact ⟨pn, _, h1⟩
            · exact ih _ _ _ _ hrec ev h2
          | ok ps =>
            simp only [Option.some.injEq, Prod.mk.injEq] at h
            intro ev hev
            rw [← h.1] at hev
            rcases List.mem_cons.mp hev with h1 | h2
            · exact ⟨pn, _, h1⟩
            · exact ih _ _ _ _ hrec ev h2

theorem partNumbersOf_nil : partNumbersOf [] = [] := rfl

theorem partNumbersOf_cons_upload (uid : String) (pn : Nat) (body : List Nat)
    (tr : List S3Event) :
    partNumbersOf (S3Event.uploadPart uid pn body :: tr)
      = pn :: partNumbersOf tr := rfl

theorem partNumbersOf_cons_create (tr : List S3Event) :
    partNumbersOf (S3Event.createMultipart :: tr) = partNumbersOf tr := rfl

theorem partNumbersOf_cons_complete (uid : String) (ps : List (Nat × String))
    (tr : List S3Event) :
    partNumbersOf (S3Event.completeMultipart uid ps :: tr)
      = partNumbersOf tr := rfl

theorem partNumbersOf_cons_abort (uid : String) (tr : List S3Event) :
    partNumbersOf (S3Event.abortMultipart uid :: tr) = partNumbersOf tr := rfl

theorem partNumbersOf_append (tr₁ tr₂ : List S3Event) :
    partNumbersOf (tr₁ ++ tr₂) = partNumbersOf tr₁ ++ partNumbersOf tr₂ :=
  List.filterMap_append _ _ _

theorem partBodiesOf_nil : partBodiesOf [] = [] := rfl

theorem partBodiesOf_cons_upload (uid : String) (pn : Nat) (body : List Nat)
    (tr : List S3Event) :
    partBodiesOf (S3Event.uploadPart uid pn body :: tr)
      = body :: partBodiesOf tr := rfl

theorem partBodiesOf_cons_create (tr : List S3Event) :
    partBodiesOf (S3Event.createMultipart :: tr) = partBodiesOf tr := rfl

theorem partBodiesOf_cons_complete (uid : String) (ps : List (Nat × String))
    (tr : List S3Event) :
    partBodiesOf (S3Event.completeMultipart uid ps :: tr)
      = partBodiesOf tr := rfl

theorem partBodiesOf_cons_abort (uid : String) (tr : List S3Event) :
    partBodiesOf (S3Event.abortMultipart uid :: tr) = partBodiesOf tr := rfl

theorem partBodiesOf_append (tr₁ tr₂ : List S3Event) :
    partBodiesOf (tr₁ ++ tr₂) = partBodiesOf tr₁ ++ partBodiesOf tr₂ :=
  List.filterMap_append _ _ _

theorem upload_loop_ok_numbering (client : S3Client) (uid : String)
    (min_size : Nat) :
    ∀ (fuel : Nat) (file : List (List Nat)) (pn : Nat) evs ps,
      upload_loop client uid min_size fuel file pn
        = some (evs, Except.ok ps) →
      ps.map Prod.fst = List.range' pn ps.length ∧
      partNumbersOf evs = List.range' pn ps.length := by
  intro fuel
  induction fuel with
  | zero =>
    intro file pn evs ps h
    rw [upload_loop_zero] at h
    exact absurd h (by simp)
  | succ n ih =>
    intro file pn evs ps h
    cases hup : client.upload_part pn (get_next_chunk min_size file).1 with
    | error e =>
      rw [upload_loop_succ_error client uid min_size n file pn e hup] at h
      simp at h
    | ok etag =>
      by_cases hsmall : (get_next_chunk min_size file).1.length < min_size
      · rw [upload_loop_succ_break client uid min_size n file pn etag hup hsmall] at h
        simp only [Option.some.injEq, Prod.mk.injEq, Except.ok.injEq] at h
        rw [← h.1, ← h.2]
        constructor
        · simp [List.range']
        · simp [partNumbersOf_cons_upload, partNumbersOf_nil, List.range']
      · rw [upload_loop_succ_cont client uid min_size n file pn etag hup hsmall] at h
        cases hrec : upload_loop client uid min_size n
            (get_next_chunk min_size file).2 (pn + 1) with
        | none => rw [hrec] at h; exact absurd h (by simp)
        | some r2 =>
          rcases r2 with ⟨evs2, r2⟩
          rw [hrec] at h
          cases r2 with
          | error e => simp at h
          | ok ps2 =>
            simp only [Option.some.injEq, Prod.mk.injEq, Except.ok.injEq] at h
            obtain ⟨h1, h2⟩ := h
            obtain ⟨ih1, ih2⟩ := ih _ _ _ _ hrec
            rw [← h1, ← h2]
            constructor
            · simp only [List.map_cons, ih1, List.length_cons]
              rw [List.range'_succ]
            · rw [partNumbersOf_cons_upload, ih2]
              simp only [List.length_cons]
              rw [List.range'_succ]

theorem upload_loop_body_sizes (client : S3Client) (uid : String)
    (min_size : Nat) :
    ∀ (fuel : Nat) (file : List (List Nat)) (pn : Nat) evs r,
      upload_loop client uid min_size fuel file pn = some (evs, r) →
      partBodiesOf evs ≠ [] ∧
      (∀ b ∈ (partBodiesOf evs).dropLast, min_size ≤ b.length) ∧
      (∀ ps, r = Except.ok ps →
        ∃ lastb, (partBodiesOf evs).getLast? = some lastb ∧
          lastb.length < min_size) := by
  intro fuel
  induction fuel with
  | zero =>
    intro file pn evs r h
    rw [upload_loop_zero] at h
    exact absurd h (by simp)
  | succ n ih =>
    intro file pn evs r h
    cases hup : client.upload_part pn (get_next_chunk min_size file).1 with
    | error e =>
      rw [upload_loop_succ_error client uid min_size n file pn e hup] at h
      simp only [Option.some.injEq, Prod.mk.injEq] at h
      rw [← h.1]
      refine ⟨by simp [partBodiesOf_cons_upload, partBodiesOf_nil], ?_, ?_⟩
      · simp [partBodiesOf_cons_upload, partBodiesOf_nil]
      · intro ps hps
        rw [← h.2] at hps
        exact absurd hps (by simp)
    | ok etag =>
      by_cases hsmall : (get_next_chunk min_size file).1.length < min_size
      · rw [upload_loop_succ_break client uid min_size n file pn etag hup hsmall] at h
        simp only [Option.some.injEq, Prod.mk.injEq] at h
        rw [← h.1]
        refine ⟨by simp [partBodiesOf_cons_upload, partBodiesOf_nil], ?_, ?_⟩
        · simp [partBodiesOf_cons_upload, partBodiesOf_nil]
        · intro ps hps
          simp [partBodiesOf_cons_upload, partBodiesOf_nil, hsmall]
      · rw [upload_loop_succ_cont client uid min_size n file pn etag hup hsmall] at h
        cases hrec : upload_loop client uid min_size n
            (get_next_chunk min_size file).2 (pn + 1) with
        | none => rw [hrec] at h; exact absurd h (by simp)
        | some r2 =>
          rcases r2 with ⟨evs2, r2⟩
          rw [hrec] at h
          obtain ⟨ihne, ihdrop, ihlast⟩ := ih _ _ _ _ hrec
          cases hb2 : partBodiesOf evs2 with
          | nil => exact absurd hb2 ihne
          | cons b2 bs2 =>
            rw [hb2] at ihdrop ihlast
            cases r2 with
            | error e =>
              simp only [Option.some.injEq, Prod.mk.injEq] at h
              rw [← h.1]
              rw [partBodiesOf_cons_upload, hb2]
              refine ⟨by simp, ?_, ?_⟩
              · intro b hb
                rw [List.dropLast_cons₂] at hb
                rcases List.mem_cons.mp hb with hb1 | hbr
                · rw [hb1]; omega
                · exact ihdrop b hbr
              · intro ps hps
                rw [← h.2] at hps
                exact absurd hps (by simp)
            | ok ps2 =>
              simp only [Option.some.injEq, Prod.mk.injEq] at h
              rw [← h.1]
              rw [partBodiesOf_cons_upload, hb2]
              refine ⟨by simp, ?_, ?_⟩
              · intro b hb
                rw [List.dropLast_cons₂] at hb
                rcases List.mem_cons.mp hb with hb1 | hbr
                · rw [hb1]; omega
                · exact ihdrop b hbr
              · intro ps hps
                obtain ⟨lastb, hl1, hl2⟩ := ihlast ps2 rfl
                refine ⟨lastb, ?_, hl2⟩
                rw [List.getLast?_cons_cons]
                exact hl1

theorem upload_loop_ok_etags (client : S3Client) (uid : String)
    (min_size : Nat) :
    ∀ (fuel : Nat) (file : List (List Nat)) (pn : Nat) evs ps,
      upload_loop client uid min_size fuel file pn
        = some (evs, Except.ok ps) →
      ∀ (i : Nat) (pr : Nat × String), ps[i]? = some pr →
        ∃ body, (partBodiesOf evs)[i]? = some body ∧
          client.upload_part pr.1 body = Except.ok pr.2 := by
  intro fuel
  induction fuel with
  | zero =>
    intro file pn evs ps h
    rw [upload_loop_zero] at h
    exact absurd h (by simp)
  | succ n ih =>
    intro file pn evs ps h
    cases hup : client.upload_part pn (get_next_chunk min_size file).1 with
    | error e =>
      rw [upload_loop_succ_error client uid min_size n file pn e hup] at h
      simp at h
    | ok etag =>
      by_cases hsmall : (get_next_chunk min_size file).1.length < min_size
      · rw [upload_loop_succ_break client uid min_size n file pn etag hup hsmall] at h
        simp only [Option.some.injEq, Prod.mk.injEq, Except.ok.injEq] at h
        intro i pr hpr
        rw [← h.2] at hpr
        rw [← h.1, partBodiesOf_cons_upload, partBodiesOf_nil]
        cases i with
        | zero =>
          simp only [List.getElem?_cons_zero, Option.some.injEq] at hpr
          rw [← hpr]
          exact ⟨_, by simp, hup⟩
        | succ j => simp at hpr
      · rw [upload_loop_succ_cont client uid min_size n file pn etag hup hsmall] at h
        cases hrec : upload_loop client uid min_size n
            (get_next_chunk min_size file).2 (pn + 1) with
        | none => rw [hrec] at h; exact absurd h (by simp)
        | some r2 =>
          rcases r2 with ⟨evs2, r2⟩
          rw [hrec] at h
          cases r2 with
          | error e => simp at h
          | ok ps2 =>
            simp only [Option.some.injEq, Prod.mk.injEq, Except.ok.injEq] at h
            intro i pr hpr
            rw [← h.2] at hpr
            rw [← h.1, partBodiesOf_cons_upload]
            cases i with
            | zero =>
              simp only [List.getElem?_cons_zero, Option.some.injEq] at hpr
              rw [← hpr]
              exact ⟨_, by simp, hup⟩
            | succ j =>
              simp only [List.getElem?_cons_succ] at hpr ⊢
              exact ih _ _ _ _ hrec j pr hpr

theorem recorded_parts_nil (client : S3Client) :
    recorded_parts client [] = [] := rfl

theorem recorded_parts_cons_create (client : S3Client) (tr : List S3Event) :
    recorded_parts client (S3Event.createMultipart :: tr)
      = recorded_parts client tr := rfl

theorem recorded_parts_cons_complete (client : S3Client) (uid : String)
    (ps : List (Nat × String)) (tr : List S3Event) :
    recorded_parts client (S3Event.completeMultipart uid ps :: tr)
      = recorded_parts client tr := rfl

theorem recorded_parts_cons_abort (client : S3Client) (uid : String)
    (tr : List S3Event) :
    recorded_parts client (S3Event.abortMultipart uid :: tr)
      = recorded_parts client tr := rfl

theorem recorded_parts_append (client : S3Client) (tr₁ tr₂ : List S3Event) :
    recorded_parts client (tr₁ ++ tr₂)
      = recorded_parts client tr₁ ++ recorded_parts client tr₂ :=
  List.filterMap_append _ _ _

theorem recorded_parts_cons_upload_ok (client : S3Client) (uid : String)
    (pn : Nat) (body : List Nat) (etag : String) (tr : List S3Event)
    (h : client.upload_part pn body = Except.ok etag) :
    recorded_parts client (S3Event.uploadPart uid pn body :: tr)
      = (pn, etag) :: recorded_parts client tr := by
  simp only [recorded_parts, List.filterMap_cons, h]

theorem recorded_parts_cons_upload_error (client : S3Client) (uid : String)
    (pn : Nat) (body : List Nat) (e : String) (tr : List S3Event)
    (h : client.upload_part pn body = Except.error e) :
    recorded_parts client (S3Event.uploadPart uid pn body :: tr)
      = recorded_parts client tr := by
  simp only [recorded_parts, List.filterMap_cons, h]

theorem upload_loop_recorded (client : S3Client) (uid : String)
    (min_size : Nat) :
    ∀ (fuel : Nat) (file : List (List Nat)) (pn : Nat) evs r,
      upload_loop client uid min_size fuel file pn = some (evs, r) →
      (recorded_parts client evs).map Prod.fst
        = List.range' pn (recorded_parts client evs).length ∧
      (∀ ps, r = Except.ok ps → recorded_parts client evs = ps) := by
  intro fuel
  induction fuel with
  | zero =>
    intro file pn evs r h
    rw [upload_loop_zero] at h
    exact absurd h (by simp)
  | succ n ih =>
    intro file pn evs r h
    cases hup : client.upload_part pn (get_next_chunk min_size file).1 with
    | error e =>
      rw [upload_loop_succ_error client uid min_size n file pn e hup] at h
      simp only [Option.some.injEq, Prod.mk.injEq] at h
      rw [← h.1]
      rw [recorded_parts_cons_upload_error client uid pn _ e [] hup,
        recorded_parts_nil]
      refine ⟨rfl, ?_⟩
      intro ps hps
      rw [← h.2] at hps
      exact absurd hps (by simp)
    | ok etag =>
      by_cases hsmall : (get_next_chunk min_size file).1.length < min_size
      · rw [upload_loop_succ_break client uid min_size n file pn etag hup
          hsmall] at h
        simp only [Option.some.injEq, Prod.mk.injEq] at h
        rw [← h.1]
        rw [recorded_parts_cons_upload_ok client uid pn _ etag [] hup,
          recorded_parts_nil]
        refine ⟨by simp [List.range'], ?_⟩
        intro ps hps
        rw [← h.2] at hps
        simp only [Except.ok.injEq] at hps
        rw [hps]
      · rw [upload_loop_succ_cont client uid min_size n file pn etag hup
          hsmall] at h
        cases hrec : upload_loop client uid min_size n
            (get_next_chunk min_size file).2 (pn + 1) with
        | none => rw [hrec] at h; exact absurd h (by simp)
        | some r2 =>
          rcases r2 with ⟨evs2, r2⟩
          rw [hrec] at h
          obtain ⟨ihnum, ihok⟩ := ih _ _ _ _ hrec
          cases r2 with
          | error e =>
            simp only [Option.some.injEq, Prod.mk.injEq] at h
            rw [← h.1]
            rw [recorded_parts_cons_upload_ok client uid pn _ etag _ hup]
            constructor
            · simp only [List.map_cons, List.length_cons, ihnum,
                List.range'_succ]
            · intro ps hps
              rw [← h.2] at hps
              exact absurd hps (by simp)
          | ok ps2 =>
            simp only [Option.some.injEq, Prod.mk.injEq] at h
            rw [← h.1]
            rw [recorded_parts_cons_upload_ok client uid pn _ etag _ hup]
            constructor
            · simp only [List.map_cons, List.length_cons, ihnum,
                List.range'_succ]
            · intro ps hps
              rw [← h.2] at hps
              simp only [Except.ok.injEq] at hps
              rw [← hps, ihok ps2 rfl]

/-- C2: if any part upload or the completion call of the multipart
upload fails, `do_upload_multipart` issues an abort-multipart-upload
request with the same uploadId obtained at creation and does not return
success, and when the failure was a part upload no
complete-multipart-upload call is ever issued. -/
theorem do_upload_multipart_aborts_on_failure
    (client : S3Client) (min_size : Nat) (file : List (List Nat)) (uid : String)
    (hcr : client.create_multipart_upload = Except.ok uid)
    (hfail :
      (∃ evs e, upload_loop client uid min_size (file.length + 1) file 1
          = some (evs, Except.error e)) ∨
      (∃ evs ps e, upload_loop client uid min_size (file.length + 1) file 1
          = some (evs, Except.ok ps) ∧
          client.complete_multipart_upload ps = Except.error e)) :
    ∃ tr out, do_upload_multipart client min_size file = some (tr, out) ∧
      S3Event.abortMultipart uid ∈ tr ∧
      out ≠ UploadOutcome.ok ∧
      ((∃ evs e, upload_loop client uid min_size (file.length + 1) file 1
          = some (evs, Except.error e)) →
        ∀ u ps, S3Event.completeMultipart u ps ∉ tr) := by
  rcases hfail with ⟨evs, e, hl⟩ | ⟨evs, ps, e, hl, hcomp⟩
  · cases habort : client.abort_multipart_upload with
    | ok u =>
      refine ⟨S3Event.createMultipart :: evs ++ [S3Event.abortMultipart uid],
        UploadOutcome.failed, ?_, ?_, by simp, ?_⟩
      · simp only [do_upload_multipart, hcr, hl, habort]
      · simp
      · intro _ u2 ps2 hmem
        rcases List.mem_cons.mp hmem with hc | hmem2
        · exact absurd hc.symm (by simp)
        · rcases List.mem_append.mp hmem2 with hin | hone
          · obtain ⟨pnum, body, heq⟩ :=
              upload_loop_events_shape client uid min_size _ _ _ _ _ hl _ hin
            exact absurd heq (by simp)
          · simp at hone
    | error a =>
      refine ⟨S3Event.createMultipart :: evs ++ [S3Event.abortMultipart uid],
        UploadOutcome.raised a (some e), ?_, ?_, by simp, ?_⟩
      · simp only [do_upload_multipart, hcr, hl, habort]
      · simp
      · intro _ u2 ps2 hmem
        rcases List.mem_cons.mp hmem with hc | hmem2
        · exact absurd hc.symm (by simp)
        · rcases List.mem_append.mp hmem2 with hin | hone
          · obtain ⟨pnum, body, heq⟩ :=
              upload_loop_events_shape client uid min_size _ _ _ _ _ hl _ hin
            exact absurd heq (by simp)
          · simp at hone
  · cases habort : client.abort_multipart_upload with
    | ok u =>
      refine ⟨S3Event.createMultipart :: evs ++
          [S3Event.completeMultipart uid ps, S3Event.abortMultipart uid],
        UploadOutcome.failed, ?_, ?_, by simp, ?_⟩
      · simp only [do_upload_multipart, hcr, hl, hcomp, habort]
      · simp
      · intro ⟨evs2, e2, hl2⟩
        rw [hl] at hl2
        simp at hl2
    | error a =>
      refine ⟨S3Event.createMultipart :: evs ++
          [S3Event.completeMultipart uid ps, S3Event.abortMultipart uid],
        UploadOutcome.raised a (some e), ?_, ?_, by simp, ?_⟩
      · simp only [do_upload_multipart, hcr, hl, hcomp, habort]
      · simp
      · intro ⟨evs2, e2, hl2⟩
        rw [hl] at hl2
        simp at hl2

/-- Witness for C2: a client whose second part upload fails; the run
aborts with the created uploadId, returns failure and never calls
complete. -/
theorem do_upload_multipart_aborts_on_failure_witness :
    ∃ tr out,
      do_upload_multipart
        { create_multipart_upload := Except.ok "uid1",
          upload_part := fun pn _ =>
            if pn = 2 then Except.error "boom" else Except.ok "etag",
          complete_multipart_upload := fun _ => Except.ok (),
          abort_multipart_upload := Except.ok () } 2 [[10, 11], [12, 13], [14]]
        = some (tr, out) ∧
      S3Event.abortMultipart "uid1" ∈ tr ∧
      out ≠ UploadOutcome.ok ∧
      ((∃ evs e, upload_loop
          { create_multipart_upload := Except.ok "uid1",
            upload_part := fun pn _ =>
              if pn = 2 then Except.error "boom" else Except.ok "etag",
            complete_multipart_upload := fun _ => Except.ok (),
            abort_multipart_upload := Except.ok () } "uid1" 2 4
            [[10, 11], [12, 13], [14]] 1
          = some (evs, Except.error e)) →
        ∀ u ps, S3Event.completeMultipart u ps ∉ tr) :=
  do_upload_multipart_aborts_on_failure _ 2 _ "uid1" rfl
    (Or.inl ⟨[S3Event.uploadPart "uid1" 1 [10, 11],
      S3Event.uploadPart "uid1" 2 [12, 13]], "boom", by rfl⟩)

/-- C3: if a part upload or the completion call fails with error `e`
and the subsequent abort call itself fails with error `a`, the run
still surfaces the original error: the escaping exception is `a` with
`e` attached as its Python exception-chaining context, so the abort
failure is reported alongside the original error and never silently
swallows it. -/
theorem do_upload_multipart_abort_failure_reports_both
    (client : S3Client) (min_size : Nat) (file : List (List Nat))
    (uid e a : String)
    (hcr : client.create_multipart_upload = Except.ok uid)
    (hfail :
      (∃ evs, upload_loop client uid min_size (file.length + 1) file 1
          = some (evs, Except.error e)) ∨
      (∃ evs ps, upload_loop client uid min_size (file.length + 1) file 1
          = some (evs, Except.ok ps) ∧
          client.complete_multipart_upload ps = Except.error e))
    (habort : client.abort_multipart_upload = Except.error a) :
    ∃ tr, do_upload_multipart client min_size file
        = some (tr, UploadOutcome.raised a (some e)) ∧
      S3Event.abortMultipart uid ∈ tr := by
  rcases hfail with ⟨evs, hl⟩ | ⟨evs, ps, hl, hcomp⟩
  · refine ⟨S3Event.createMultipart :: evs ++ [S3Event.abortMultipart uid], ?_, ?_⟩
    · simp only [do_upload_multipart, hcr, hl, habort]
    · simp
  · refine ⟨S3Event.createMultipart :: evs ++
      [S3Event.completeMultipart uid ps, S3Event.abortMultipart uid], ?_, ?_⟩
    · simp only [do_upload_multipart, hcr, hl, hcomp, habort]
    · simp

/-- Witness for C3: part 2 fails and the abort call also fails; the
outcome carries the abort error with the original part error chained. -/
theorem do_upload_multipart_abort_failure_reports_both_witness :
    ∃ tr,
      do_upload_multipart
        { create_multipart_upload := Except.ok "uid1",
          upload_part := fun pn _ =>
            if pn = 2 then Except.error "boom" else Except.ok "etag",
          complete_multipart_upload := fun _ => Except.ok (),
          abort_multipart_upload := Except.error "abort-fail" } 2
        [[10, 11], [12, 13], [14]]
        = some (tr, UploadOutcome.raised "abort-fail" (some "boom")) ∧
      S3Event.abortMultipart "uid1" ∈ tr :=
  do_upload_multipart_abort_failure_reports_both _ 2 _ "uid1" "boom" "abort-fail"
    rfl
    (Or.inl ⟨[S3Event.uploadPart "uid1" 1 [10, 11],
      S3Event.uploadPart "uid1" 2 [12, 13]], by rfl⟩)
    rfl

/-- C5: throughout every run — success, part-upload failure or
completion failure alike — the recorded parts list (the
`(PartNumber, ETag)` pairs appended after each successful `upload_part`
call, reconstructed from the trace by `recorded_parts`) has part
numbers exactly `1, 2, …, j`: strictly increasing, starting at 1, with
no gaps, in the order the parts were produced from the input stream;
and on the success path the complete-multipart-upload request lists
exactly the recorded `(partNumber, etag)` pairs in that ascending
order. -/
theorem do_upload_multipart_part_numbering
    (client : S3Client) (min_size : Nat) (file : List (List Nat))
    (uid : String) (tr : List S3Event) (out : UploadOutcome)
    (hcr : client.create_multipart_upload = Except.ok uid)
    (h : do_upload_multipart client min_size file = some (tr, out)) :
    (recorded_parts client tr).map Prod.fst
      = List.range' 1 (recorded_parts client tr).length ∧
    (out = UploadOutcome.ok →
      ∃ ps, S3Event.completeMultipart uid ps ∈ tr ∧
        ps = recorded_parts client tr ∧
        ps.map Prod.fst = List.range' 1 ps.length ∧
        partNumbersOf tr = List.range' 1 ps.length) := by
  simp only [do_upload_multipart, hcr] at h
  cases hl : upload_loop client uid min_size (file.length + 1) file 1 with
  | none => simp only [hl] at h; exact absurd h (by simp)
  | some r =>
    rcases r with ⟨evs, r⟩
    obtain ⟨hnum, hok⟩ := upload_loop_recorded client uid min_size _ _ _ _ _ hl
    have hR : ∀ tail : List S3Event, recorded_parts client tail = [] →
        recorded_parts client (S3Event.createMultipart :: evs ++ tail)
          = recorded_parts client evs := by
      intro tail htail
      simp only [recorded_parts_cons_create, recorded_parts_append, htail,
        List.append_nil]
    cases r with
    | error e =>
      cases habort : client.abort_multipart_upload with
      | ok u =>
        simp only [hl, habort, Option.some.injEq, Prod.mk.injEq] at h
        rw [← h.1, hR [S3Event.abortMultipart uid] rfl]
        refine ⟨hnum, ?_⟩
        intro hout
        rw [← h.2] at hout
        exact absurd hout (by simp)
      | error a =>
        simp only [hl, habort, Option.some.injEq, Prod.mk.injEq] at h
        rw [← h.1, hR [S3Event.abortMultipart uid] rfl]
        refine ⟨hnum, ?_⟩
        intro hout
        rw [← h.2] at hout
        exact absurd hout (by simp)
    | ok ps =>
      cases hcomp : client.complete_multipart_upload ps with
      | error e =>
        cases habort : client.abort_multipart_upload with
        | ok u =>
          simp only [hl, hcomp, habort, Option.some.injEq, Prod.mk.injEq] at h
          rw [← h.1, hR [S3Event.completeMultipart uid ps,
            S3Event.abortMultipart uid] rfl]
          refine ⟨hnum, ?_⟩
          intro hout
          rw [← h.2] at hout
          exact absurd hout (by simp)
        | error a =>
          simp only [hl, hcomp, habort, Option.some.injEq, Prod.mk.injEq] at h
          rw [← h.1, hR [S3Event.completeMultipart uid ps,
            S3Event.abortMultipart uid] rfl]
          refine ⟨hnum, ?_⟩
          intro hout
          rw [← h.2] at hout
          exact absurd hout (by simp)
      | ok u =>
        simp only [hl, hcomp, Option.some.injEq, Prod.mk.injEq] at h
        obtain ⟨hn1, hn2⟩ := upload_loop_ok_numbering client uid min_size _ _ _ _ _ hl
        rw [← h.1, hR [S3Event.completeMultipart uid ps] rfl]
        refine ⟨hnum, ?_⟩
        intro _
        refine ⟨ps, by simp, (hok ps rfl).symm, hn1, ?_⟩
        simp only [partNumbersOf_cons_create, partNumbersOf_append,
          partNumbersOf_cons_complete, partNumbersOf_nil, List.append_nil]
        exact hn2

/-- Witness for C5: a successful two-part run; the recorded list is
`[(1, etag), (2, etag)]` with numbers `[1, 2]`, listed exactly by the
completion request. -/
theorem do_upload_multipart_part_numbering_witness :
    ((recorded_parts
        { create_multipart_upload := Except.ok "uid1",
          upload_part := fun _ _ => Except.ok "etag",
          complete_multipart_upload := fun _ => Except.ok (),
          abort_multipart_upload := Except.ok () }
        [S3Event.createMultipart,
          S3Event.uploadPart "uid1" 1 [1, 2], S3Event.uploadPart "uid1" 2 [3],
          S3Event.completeMultipart "uid1" [(1, "etag"), (2, "etag")]]).map
        Prod.fst
      = List.range' 1 (recorded_parts
        { create_multipart_upload := Except.ok "uid1",
          upload_part := fun _ _ => Except.ok "etag",
          complete_multipart_upload := fun _ => Except.ok (),
          abort_multipart_upload := Except.ok () }
        [S3Event.createMultipart,
          S3Event.uploadPart "uid1" 1 [1, 2], S3Event.uploadPart "uid1" 2 [3],
          S3Event.completeMultipart "uid1" [(1, "etag"), (2, "etag")]]).length) ∧
    (UploadOutcome.ok = UploadOutcome.ok →
      ∃ ps, S3Event.completeMultipart "uid1" ps ∈
          [S3Event.createMultipart,
            S3Event.uploadPart "uid1" 1 [1, 2],
            S3Event.uploadPart "uid1" 2 [3],
            S3Event.completeMultipart "uid1" [(1, "etag"), (2, "etag")]] ∧
        ps = recorded_parts
          { create_multipart_upload := Except.ok "uid1",
            upload_part := fun _ _ => Except.ok "etag",
            complete_multipart_upload := fun _ => Except.ok (),
            abort_multipart_upload := Except.ok () }
          [S3Event.createMultipart,
            S3Event.uploadPart "uid1" 1 [1, 2],
            S3Event.uploadPart "uid1" 2 [3],
            S3Event.completeMultipart "uid1" [(1, "etag"), (2, "etag")]] ∧
        ps.map Prod.fst = List.range' 1 ps.length ∧
        partNumbersOf
          [S3Event.createMultipart,
            S3Event.uploadPart "uid1" 1 [1, 2],
            S3Event.uploadPart "uid1" 2 [3],
            S3Event.completeMultipart "uid1" [(1, "etag"), (2, "etag")]]
          = List.range' 1 ps.length) :=
  do_upload_multipart_part_numbering
    { create_multipart_upload := Except.ok "uid1",
      upload_part := fun _ _ => Except.ok "etag",
      complete_multipart_upload := fun _ => Except.ok (),
      abort_multipart_upload := Except.ok () } 2 [[1, 2], [3]] "uid1" _
    UploadOutcome.ok rfl rfl

/-- C7: in every run, every part uploaded except the final one has size
at least `min_size`, and when the upload loop finishes normally
(input exhausted) it stopped exactly after uploading the first part
whose size is below the minimum — the last uploaded part is small and
no earlier one is. -/
theorem do_upload_multipart_min_part_size
    (client : S3Client) (min_size : Nat) (file : List (List Nat))
    (uid : String) (tr : List S3Event) (out : UploadOutcome)
    (hcr : client.create_multipart_upload = Except.ok uid)
    (h : do_upload_multipart client min_size file = some (tr, out)) :
    (∀ b ∈ (partBodiesOf tr).dropLast, min_size ≤ b.length) ∧
    ((∃ evs ps, upload_loop client uid min_size (file.length + 1) file 1
        = some (evs, Except.ok ps)) →
      ∃ lastb, (partBodiesOf tr).getLast? = some lastb ∧
        lastb.length < min_size) := by
  simp only [do_upload_multipart, hcr] at h
  cases hl : upload_loop client uid min_size (file.length + 1) file 1 with
  | none => simp only [hl] at h; exact absurd h (by simp)
  | some r =>
    rcases r with ⟨evs, r⟩
    obtain ⟨hne, hdrop, hlast⟩ := upload_loop_body_sizes client uid min_size _ _ _ _ _ hl
    have hbodies : ∀ tail : List S3Event, partBodiesOf tail = [] →
        partBodiesOf (S3Event.createMultipart :: evs ++ tail)
          = partBodiesOf evs := by
      intro tail htail
      simp only [partBodiesOf_cons_create, partBodiesOf_append, htail,
        List.append_nil]
    cases r with
    | error e =>
      cases habort : client.abort_multipart_upload with
      | ok u =>
        simp only [hl, habort, Option.some.injEq, Prod.mk.injEq] at h
        rw [← h.1, hbodies [S3Event.abortMultipart uid] rfl]
        refine ⟨hdrop, ?_⟩
        intro ⟨evs2, ps2, hl2⟩
        simp at hl2
      | error a =>
        simp only [hl, habort, Option.some.injEq, Prod.mk.injEq] at h
        rw [← h.1, hbodies [S3Event.abortMultipart uid] rfl]
        refine ⟨hdrop, ?_⟩
        intro ⟨evs2, ps2, hl2⟩
        simp at hl2
    | ok ps =>
      have hsmall := hlast ps rfl
      cases hcomp : client.complete_multipart_upload ps with
      | error e =>
        cases habort : client.abort_multipart_upload with
        | ok u =>
          simp only [hl, hcomp, habort, Option.some.injEq, Prod.mk.injEq] at h
          rw [← h.1, hbodies
            [S3Event.completeMultipart uid ps, S3Event.abortMultipart uid] rfl]
          exact ⟨hdrop, fun _ => hsmall⟩
        | error a =>
          simp only [hl, hcomp, habort, Option.some.injEq, Prod.mk.injEq] at h
          rw [← h.1, hbodies
            [S3Event.completeMultipart uid ps, S3Event.abortMultipart uid] rfl]
          exact ⟨hdrop, fun _ => hsmall⟩
      | ok u =>
        simp only [hl, hcomp, Option.some.injEq, Prod.mk.injEq] at h
        rw [← h.1, hbodies [S3Event.completeMultipart uid ps] rfl]
        exact ⟨hdrop, fun _ => hsmall⟩

/-- Witness for C7: a successful two-part run where the first part has
2 ≥ min_size bytes and the final part 1 < min_size byte. -/
theorem do_upload_multipart_min_part_size_witness :
    (∀ b ∈ (partBodiesOf
        [S3Event.createMultipart,
          S3Event.uploadPart "uid1" 1 [1, 2], S3Event.uploadPart "uid1" 2 [3],
          S3Event.completeMultipart "uid1" [(1, "etag"), (2, "etag")]]).dropLast,
      2 ≤ b.length) ∧
    ((∃ evs ps, upload_loop
        { create_multipart_upload := Except.ok "uid1",
          upload_part := fun _ _ => Except.ok "etag",
          complete_multipart_upload := fun _ => Except.ok (),
          abort_multipart_upload := Except.ok () } "uid1" 2
        ([[1, 2], [3]].length + 1) [[1, 2], [3]] 1
        = some (evs, Except.ok ps)) →
      ∃ lastb, (partBodiesOf
        [S3Event.createMultipart,
          S3Event.uploadPart "uid1" 1 [1, 2], S3Event.uploadPart "uid1" 2 [3],
          S3Event.completeMultipart "uid1" [(1, "etag"), (2, "etag")]]).getLast?
          = some lastb ∧ lastb.length < 2) :=
  do_upload_multipart_min_part_size
    { create_multipart_upload := Except.ok "uid1",
      upload_part := fun _ _ => Except.ok "etag",
      complete_multipart_upload := fun _ => Except.ok (),
      abort_multipart_upload := Except.ok () } 2 [[1, 2], [3]] "uid1" _ _ rfl rfl

theorem flatten_map_singleton (bs : List Nat) :
    (bs.map fun b => [b]).flatten = bs := by
  induction bs with
  | nil => rfl
  | cons b rest ih => simp [ih]

theorem get_next_chunk_go_singletons (m : Nat) :
    ∀ (bs : List Nat) (bufs : List (List Nat)) (total : Nat),
      total < m → m - total ≤ bs.length →
      get_next_chunk_go m (bs.map fun b => [b]) bufs total
        = (bufs ++ ((bs.take (m - total)).map fun b => [b]),
           (bs.drop (m - total)).map fun b => [b]) := by
  intro bs
  induction bs with
  | nil =>
    intro bufs total h1 h2
    simp at h2
    omega
  | cons b rest ih =>
    intro bufs total h1 h2
    simp only [List.map_cons]
    rw [get_next_chunk_go]
    simp only [List.length_cons, List.length_nil]
    by_cases hm : m ≤ total + 1
    · have : m - total = 1 := by omega
      rw [if_pos (by omega)]
      simp [this]
    · rw [if_neg (by omega)]
      rw [ih (bufs ++ [[b]]) (total + 1) (by omega) (by simp at h2 ⊢; omega)]
      have h3 : m - total = (m - (total + 1)) + 1 := by omega
      rw [h3]
      simp

theorem get_next_chunk_singletons (m : Nat) (bs : List Nat)
    (h1 : 0 < m) (h2 : m ≤ bs.length) :
    get_next_chunk m (bs.map fun b => [b])
      = (bs.take m, (bs.drop m).map fun b => [b]) := by
  rw [get_next_chunk]
  rw [get_next_chunk_go_singletons m bs [] 0 (by omega) (by omega)]
  simp only [Nat.sub_zero, List.nil_append, flatten_map_singleton]

theorem get_next_chunk_go_exhaust (m : Nat) :
    ∀ (bs : List Nat) (bufs : List (List Nat)) (total : Nat),
      total + bs.length < m →
      get_next_chunk_go m (bs.map fun b => [b]) bufs total
        = (bufs ++ (bs.map fun b => [b]), []) := by
  intro bs
  induction bs with
  | nil => intro bufs total h; simp [get_next_chunk_go]
  | cons b rest ih =>
    intro bufs total h
    simp only [List.map_cons]
    rw [get_next_chunk_go]
    simp only [List.length_cons, List.length_nil]
    rw [if_neg (by simp at h ⊢; omega)]
    rw [ih (bufs ++ [[b]]) (total + 1) (by simp at h ⊢; omega)]
    simp

theorem get_next_chunk_exhaust (m : Nat) (bs : List Nat)
    (h : bs.length < m) :
    get_next_chunk m (bs.map fun b => [b]) = (bs, []) := by
  rw [get_next_chunk]
  rw [get_next_chunk_go_exhaust m bs [] 0 (by omega)]
  simp only [List.nil_append, flatten_map_singleton]

theorem upload_loop_fuel_mono (client : S3Client) (uid : String)
    (min_size : Nat) :
    ∀ (fuel fuel' : Nat) (file : List (List Nat)) (pn : Nat) r,
      upload_loop client uid min_size fuel file pn = some r →
      fuel ≤ fuel' →
      upload_loop client uid min_size fuel' file pn = some r := by
  intro fuel
  induction fuel with
  | zero =>
    intro fuel' file pn r h
    rw [upload_loop_zero] at h
    exact absurd h (by simp)
  | succ n ih =>
    intro fuel' file pn r h hle
    cases fuel' with
    | zero => omega
    | succ n' =>
      have hn : n ≤ n' := by omega
      cases hup : client.upload_part pn (get_next_chunk min_size file).1 with
      | error e =>
        rw [upload_loop_succ_error client uid min_size n file pn e hup] at h
        rw [upload_loop_succ_error client uid min_size n' file pn e hup]
        exact h
      | ok etag =>
        by_cases hsmall : (get_next_chunk min_size file).1.length < min_size
        · rw [upload_loop_succ_break client uid min_size n file pn etag hup hsmall] at h
          rw [upload_loop_succ_break client uid min_size n' file pn etag hup hsmall]
          exact h
        · rw [upload_loop_succ_cont client uid min_size n file pn etag hup hsmall] at h
          rw [upload_loop_succ_cont client uid min_size n' file pn etag hup hsmall]
          cases hrec : upload_loop client uid min_size n
              (get_next_chunk min_size file).2 (pn + 1) with
          | none => rw [hrec] at h; exact absurd h (by simp)
          | some r2 =>
            rw [hrec] at h
            rw [ih n' _ _ _ hrec hn]
            exact h

/-- Counterexample to C6: a stream delivering the 3·min_size + 1 bytes
(min_size = 2, 7 bytes) as one single chunk is uploaded as 2 parts of
sizes 7 and 0 — not 4 parts with a final 1-byte part.  `get_next_chunk`
never splits an oversized chunk, so the first part takes all 7 bytes and
the loop then uploads one empty part. -/
theorem do_upload_multipart_chunking_counterexample :
    (do_upload_multipart
      { create_multipart_upload := Except.ok "uid1",
        upload_part := fun _ _ => Except.ok "etag",
        complete_multipart_upload := fun _ => Except.ok (),
        abort_multipart_upload := Except.ok () } 2 [[0, 1, 2, 3, 4, 5, 6]]).map
      (fun p => (partBodiesOf p.1).map List.length) = some [7, 0] ∧
    some [7, 0] ≠ some ([2, 2, 2, 1] : List Nat) := by
  exact ⟨rfl, by simp⟩

/-- C6 (amended): for a stream delivering exactly 3·min_size + 1 bytes
in single-byte chunks, with 2 ≤ min_size and all remote calls
succeeding, the run uploads exactly 4 parts of sizes
min_size, min_size, min_size, 1 — the last of exactly 1 byte — and the
successful completion request lists exactly those 4 (partNumber, etag)
pairs in ascending order. -/
theorem do_upload_multipart_three_m_plus_one_byte_chunks
    (client : S3Client) (uid : String) (m : Nat) (bs : List Nat)
    (hm : 2 ≤ m) (hlen : bs.length = 3 * m + 1)
    (hcr : client.create_multipart_upload = Except.ok uid)
    (hup : ∀ pn body, ∃ etag, client.upload_part pn body = Except.ok etag)
    (hcomp : ∀ ps, client.complete_multipart_upload ps = Except.ok ()) :
    ∃ tr ps, do_upload_multipart client m (bs.map fun b => [b])
        = some (tr, UploadOutcome.ok) ∧
      S3Event.completeMultipart uid ps ∈ tr ∧
      (partBodiesOf tr).map List.length = [m, m, m, 1] ∧
      ps.map Prod.fst = [1, 2, 3, 4] ∧
      (∀ (i : Nat) (pr : Nat × String), ps[i]? = some pr →
        ∃ body, (partBodiesOf tr)[i]? = some body ∧
          client.upload_part pr.1 body = Except.ok pr.2) := by
  have hlc1 : (bs.take m).length = m := by
    rw [List.length_take]; omega
  have hlc2 : ((bs.drop m).take m).length = m := by
    rw [List.length_take, List.length_drop]; omega
  have hlc3 : (((bs.drop m).drop m).take m).length = m := by
    rw [List.length_take, List.length_drop, List.length_drop]; omega
  have hld3 : (((bs.drop m).drop m).drop m).length = 1 := by
    rw [List.length_drop, List.length_drop, List.length_drop]; omega
  have hg1 : get_next_chunk m (bs.map fun b => [b])
      = (bs.take m, (bs.drop m).map fun b => [b]) :=
    get_next_chunk_singletons m bs (by omega) (by omega)
  have hg2 : get_next_chunk m ((bs.drop m).map fun b => [b])
      = ((bs.drop m).take m, ((bs.drop m).drop m).map fun b => [b]) :=
    get_next_chunk_singletons m (bs.drop m) (by omega)
      (by rw [List.length_drop]; omega)
  have hg3 : get_next_chunk m (((bs.drop m).drop m).map fun b => [b])
      = (((bs.drop m).drop m).take m,
         (((bs.drop m).drop m).drop m).map fun b => [b]) :=
    get_next_chunk_singletons m ((bs.drop m).drop m) (by omega)
      (by rw [List.length_drop, List.length_drop]; omega)
  have hg4 : get_next_chunk m ((((bs.drop m).drop m).drop m).map fun b => [b])
      = ((((bs.drop m).drop m).drop m), []) :=
    get_next_chunk_exhaust m (((bs.drop m).drop m).drop m) (by omega)
  have hg1a : (get_next_chunk m (bs.map fun b => [b])).1 = bs.take m := by
    rw [hg1]
  have hg1b : (get_next_chunk m (bs.map fun b => [b])).2
      = (bs.drop m).map fun b => [b] := by rw [hg1]
  have hg2a : (get_next_chunk m ((bs.drop m).map fun b => [b])).1
      = (bs.drop m).take m := by rw [hg2]
  have hg2b : (get_next_chunk m ((bs.drop m).map fun b => [b])).2
      = ((bs.drop m).drop m).map fun b => [b] := by rw [hg2]
  have hg3a : (get_next_chunk m (((bs.drop m).drop m).map fun b => [b])).1
      = ((bs.drop m).drop m).take m := by rw [hg3]
  have hg3b : (get_next_chunk m (((bs.drop m).drop m).map fun b => [b])).2
      = (((bs.drop m).drop m).drop m).map fun b => [b] := by rw [hg3]
  have hg4a : (get_next_chunk m ((((bs.drop m).drop m).drop m).map fun b => [b])).1
      = ((bs.drop m).drop m).drop m := by rw [hg4]
  obtain ⟨e1, he1⟩ := hup 1 (bs.take m)
  obtain ⟨e2, he2⟩ := hup 2 ((bs.drop m).take m)
  obtain ⟨e3, he3⟩ := hup 3 (((bs.drop m).drop m).take m)
  obtain ⟨e4, he4⟩ := hup 4 (((bs.drop m).drop m).drop m)
  have hstep4 : upload_loop client uid m (0 + 1)
      ((((bs.drop m).drop m).drop m).map fun b => [b]) 4
      = some ([S3Event.uploadPart uid 4 (((bs.drop m).drop m).drop m)],
          Except.ok [(4, e4)]) := by
    rw [upload_loop_succ_break client uid m 0
      ((((bs.drop m).drop m).drop m).map fun b => [b]) 4 e4
      (by rw [hg4a]; exact he4) (by rw [hg4a, hld3]; omega)]
    rw [hg4a]
  have hstep3 : upload_loop client uid m (0 + 1 + 1)
      (((bs.drop m).drop m).map fun b => [b]) 3
      = some ([S3Event.uploadPart uid 3 (((bs.drop m).drop m).take m),
          S3Event.uploadPart uid 4 (((bs.drop m).drop m).drop m)],
          Except.ok [(3, e3), (4, e4)]) := by
    rw [upload_loop_succ_cont client uid m (0 + 1)
      (((bs.drop m).drop m).map fun b => [b]) 3 e3
      (by rw [hg3a]; exact he3) (by rw [hg3a, hlc3]; omega)]
    rw [hg3b, hstep4, hg3a]
  have hstep2 : upload_loop client uid m (0 + 1 + 1 + 1)
      ((bs.drop m).map fun b => [b]) 2
      = some ([S3Event.uploadPart uid 2 ((bs.drop m).take m),
          S3Event.uploadPart uid 3 (((bs.drop m).drop m).take m),
          S3Event.uploadPart uid 4 (((bs.drop m).drop m).drop m)],
          Except.ok [(2, e2), (3, e3), (4, e4)]) := by
    rw [upload_loop_succ_cont client uid m (0 + 1 + 1)
      ((bs.drop m).map fun b => [b]) 2 e2
      (by rw [hg2a]; exact he2) (by rw [hg2a, hlc2]; omega)]
    rw [hg2b, hstep3, hg2a]
  have hstep1 : upload_loop client uid m (0 + 1 + 1 + 1 + 1)
      (bs.map fun b => [b]) 1
      = some ([S3Event.uploadPart uid 1 (bs.take m),
          S3Event.uploadPart uid 2 ((bs.drop m).take m),
          S3Event.uploadPart uid 3 (((bs.drop m).drop m).take m),
          S3Event.uploadPart uid 4 (((bs.drop m).drop m).drop m)],
          Except.ok [(1, e1), (2, e2), (3, e3), (4, e4)]) := by
    rw [upload_loop_succ_cont client uid m (0 + 1 + 1 + 1)
      (bs.map fun b => [b]) 1 e1
      (by rw [hg1a]; exact he1) (by rw [hg1a, hlc1]; omega)]
    rw [hg1b, hstep2, hg1a]
  have hloopfull : upload_loop client uid m ((bs.map fun b => [b]).length + 1)
      (bs.map fun b => [b]) 1
      = some ([S3Event.uploadPart uid 1 (bs.take m),
          S3Event.uploadPart uid 2 ((bs.drop m).take m),
          S3Event.uploadPart uid 3 (((bs.drop m).drop m).take m),
          S3Event.uploadPart uid 4 (((bs.drop m).drop m).drop m)],
          Except.ok [(1, e1), (2, e2), (3, e3), (4, e4)]) :=
    upload_loop_fuel_mono client uid m _ _ _ _ _ hstep1
      (by rw [List.length_map, hlen]; omega)
  have hdum : do_upload_multipart client m (bs.map fun b => [b])
      = some (S3Event.createMultipart ::
          [S3Event.uploadPart uid 1 (bs.take m),
           S3Event.uploadPart uid 2 ((bs.drop m).take m),
           S3Event.uploadPart uid 3 (((bs.drop m).drop m).take m),
           S3Event.uploadPart uid 4 (((bs.drop m).drop m).drop m)] ++
          [S3Event.completeMultipart uid
            [(1, e1), (2, e2), (3, e3), (4, e4)]], UploadOutcome.ok) := by
    simp only [do_upload_multipart, hcr, hloopfull, hcomp]
  refine ⟨_, [(1, e1), (2, e2), (3, e3), (4, e4)], hdum, by simp, ?_, rfl, ?_⟩
  · show [(bs.take m).length, ((bs.drop m).take m).length,
      (((bs.drop m).drop m).take m).length,
      (((bs.drop m).drop m).drop m).length] = [m, m, m, 1]
    rw [hlc1, hlc2, hlc3, hld3]
  · intro i pr hpr
    obtain ⟨body, hb, hupb⟩ :=
      upload_loop_ok_etags client uid m _ _ _ _ _ hloopfull i pr hpr
    exact ⟨body, hb, hupb⟩

/-- Witness for the amended C6: min_size = 2 and the 7 bytes 0..6
delivered byte by byte. -/
theorem do_upload_multipart_three_m_plus_one_byte_chunks_witness :
    ∃ tr ps, do_upload_multipart
        { create_multipart_upload := Except.ok "uid1",
          upload_part := fun _ _ => Except.ok "etag",
          complete_multipart_upload := fun _ => Except.ok (),
          abort_multipart_upload := Except.ok () } 2
        ([0, 1, 2, 3, 4, 5, 6].map fun b => [b])
        = some (tr, UploadOutcome.ok) ∧
      S3Event.completeMultipart "uid1" ps ∈ tr ∧
      (partBodiesOf tr).map List.length = [2, 2, 2, 1] ∧
      ps.map Prod.fst = [1, 2, 3, 4] ∧
      (∀ (i : Nat) (pr : Nat × String), ps[i]? = some pr →
        ∃ body, (partBodiesOf tr)[i]? = some body ∧
          S3Client.upload_part
            { create_multipart_upload := Except.ok "uid1",
              upload_part := fun _ _ => Except.ok "etag",
              complete_multipart_upload := fun _ => Except.ok (),
              abort_multipart_upload := Except.ok () } pr.1 body
            = Except.ok pr.2) :=
  do_upload_multipart_three_m_plus_one_byte_chunks
    { create_multipart_upload := Except.ok "uid1",
      upload_part := fun _ _ => Except.ok "etag",
      complete_multipart_upload := fun _ => Except.ok (),
      abort_multipart_upload := Except.ok () } "uid1" 2 [0, 1, 2, 3, 4, 5, 6]
    (by omega) rfl rfl (fun pn body => ⟨"etag", rfl⟩) (fun ps => rfl)

/-- Input streams that are exhausted exactly when an accumulated part
has reached the minimum size: every `get_next_chunk` before exhaustion
returns a full-sized part, and the stream ends at such a boundary
(including the empty stream). -/
inductive ExhaustsAligned (min_size : Nat) : List (List Nat) → Prop where
  | nil : ExhaustsAligned min_size []
  | step (file : List (List Nat)) (hne : file ≠ [])
      (hbig : min_size ≤ (get_next_chunk min_size file).1.length)
      (tail : ExhaustsAligned min_size (get_next_chunk min_size file).2) :
      ExhaustsAligned min_size file

theorem upload_loop_aligned (client : S3Client) (uid : String) (m : Nat)
    (hup : ∀ pn body, ∃ etag, client.upload_part pn body = Except.ok etag) :
    ∀ (file : List (List Nat)), ExhaustsAligned m file →
      ∀ (fuel pn : Nat), file.length < fuel → 0 < m →
      ∃ evs ps,
        upload_loop client uid m fuel file pn = some (evs, Except.ok ps) ∧
        (partBodiesOf evs).getLast? = some [] := by
  intro file halign
  induction halign with
  | nil =>
    intro fuel pn hfuel hm
    cases fuel with
    | zero => omega
    | succ n =>
      obtain ⟨e, he⟩ := hup pn []
      have hup2 : client.upload_part pn (get_next_chunk m []).1
          = Except.ok e := by
        rw [get_next_chunk_nil]; exact he
      refine ⟨_, _, upload_loop_succ_break client uid m n [] pn e hup2 ?_, ?_⟩
      · rw [get_next_chunk_nil]; simpa using hm
      · simp [partBodiesOf_cons_upload, partBodiesOf_nil, get_next_chunk_nil]
  | step file hne hbig tail ih =>
    intro fuel pn hfuel hm
    cases fuel with
    | zero => omega
    | succ n =>
      obtain ⟨e, he⟩ := hup pn (get_next_chunk m file).1
      have hrest : (get_next_chunk m file).2.length < n := by
        have := get_next_chunk_rest_lt m file hne
        omega
      obtain ⟨evs2, ps2, hrec, hlast2⟩ := ih n (pn + 1) hrest hm
      have hb2ne : partBodiesOf evs2 ≠ [] := by
        intro h0
        rw [h0] at hlast2
        simp at hlast2
      refine ⟨S3Event.uploadPart uid pn (get_next_chunk m file).1 :: evs2,
        (pn, e) :: ps2, ?_, ?_⟩
      · rw [upload_loop_succ_cont client uid m n file pn e he (by omega)]
        rw [hrec]
      · rw [partBodiesOf_cons_upload]
        cases hb : partBodiesOf evs2 with
        | nil => exact absurd hb hb2ne
        | cons x xs =>
          rw [List.getLast?_cons_cons, ← hb]
          exact hlast2

/-- C10: when the input stream is exhausted exactly as the last
accumulated part reached the minimum size (including the empty stream),
the run uploads one additional final part of exactly 0 bytes — the last
uploaded body is empty, every earlier one meets the minimum — and only
then issues the completion request (the trace ends with it). -/
theorem do_upload_multipart_trailing_empty_part
    (client : S3Client) (uid : String) (m : Nat) (file : List (List Nat))
    (hm : 0 < m)
    (hcr : client.create_multipart_upload = Except.ok uid)
    (hup : ∀ pn body, ∃ etag, client.upload_part pn body = Except.ok etag)
    (hcomp : ∀ ps, client.complete_multipart_upload ps = Except.ok ())
    (halign : ExhaustsAligned m file) :
    ∃ tr ps, do_upload_multipart client m file = some (tr, UploadOutcome.ok) ∧
      (partBodiesOf tr).getLast? = some [] ∧
      (∀ b ∈ (partBodiesOf tr).dropLast, m ≤ b.length) ∧
      tr.getLast? = some (S3Event.completeMultipart uid ps) := by
  obtain ⟨evs, ps, hloop, hlast⟩ :=
    upload_loop_aligned client uid m hup file halign (file.length + 1) 1
      (by omega) hm
  obtain ⟨hne, hdrop, -⟩ :=
    upload_loop_body_sizes client uid m (file.length + 1) file 1 evs
      (Except.ok ps) hloop
  have hdum : do_upload_multipart client m file
      = some (S3Event.createMultipart ::
          evs ++ [S3Event.completeMultipart uid ps], UploadOutcome.ok) := by
    simp only [do_upload_multipart, hcr, hloop, hcomp]
  have hbodies : partBodiesOf (S3Event.createMultipart ::
      evs ++ [S3Event.completeMultipart uid ps]) = partBodiesOf evs := by
    simp only [partBodiesOf_cons_create, partBodiesOf_append,
      partBodiesOf_cons_complete, partBodiesOf_nil, List.append_nil]
  refine ⟨_, ps, hdum, ?_, ?_, ?_⟩
  · rw [hbodies]; exact hlast
  · rw [hbodies]; exact hdrop
  · show ((S3Event.createMultipart :: evs)
        ++ [S3Event.completeMultipart uid ps]).getLast? = _
    rw [List.getLast?_concat]

/-- Witness for C10: the empty input stream with min_size 3; a single
0-byte part is uploaded and then the upload is completed. -/
theorem do_upload_multipart_trailing_empty_part_witness :
    ∃ tr ps, do_upload_multipart
        { create_multipart_upload := Except.ok "uid1",
          upload_part := fun _ _ => Except.ok "etag",
          complete_multipart_upload := fun _ => Except.ok (),
          abort_multipart_upload := Except.ok () } 3 []
        = some (tr, UploadOutcome.ok) ∧
      (partBodiesOf tr).getLast? = some [] ∧
      (∀ b ∈ (partBodiesOf tr).dropLast, 3 ≤ b.length) ∧
      tr.getLast? = some (S3Event.completeMultipart "uid1" ps) :=
  do_upload_multipart_trailing_empty_part
    { create_multipart_upload := Except.ok "uid1",
      upload_part := fun _ _ => Except.ok "etag",
      complete_multipart_upload := fun _ => Except.ok (),
      abort_multipart_upload := Except.ok () } "uid1" 3 [] (by omega) rfl
    (fun pn body => ⟨"etag", rfl⟩) (fun ps => rfl) ExhaustsAligned.nil

/-! Theorems about the log merge. -/

/-- C8: every record yielded by `stream_json_lines` satisfies the
filters: with a non-empty levelFilter its logLevel is in the filter,
with a non-empty contextFilter its context is in the filter; an empty
filter list (falsy in Python) imposes no restriction. -/
theorem stream_json_lines_filter_sound (log_levels contexts : List String)
    (iterator : List LogRecord) (r : LogRecord)
    (h : r ∈ stream_json_lines log_levels contexts iterator) :
    (log_levels ≠ [] → r.logLevel ∈ log_levels) ∧
    (contexts ≠ [] → r.context ∈ contexts) := by
  rw [stream_json_lines, List.mem_filter] at h
  obtain ⟨-, hp⟩ := h
  rw [passes_filters, Bool.and_eq_true] at hp
  obtain ⟨h1, h2⟩ := hp
  constructor
  · intro hne
    rcases Bool.or_eq_true_iff.mp h1 with he | hc
    · exact absurd (List.isEmpty_iff.mp he) hne
    · exact List.elem_iff.mp hc
  · intro hne
    rcases Bool.or_eq_true_iff.mp h2 with he | hc
    · exact absurd (List.isEmpty_iff.mp he) hne
    · exact List.elem_iff.mp hc

/-- Witness for C8: a record passing a non-empty level filter and an
empty context filter. -/
theorem stream_json_lines_filter_sound_witness :
    ((["error"] : List String) ≠ [] →
      LogRecord.logLevel ⟨1, "error", "general"⟩ ∈ (["error"] : List String)) ∧
    (([] : List String) ≠ [] →
      LogRecord.context ⟨1, "error", "general"⟩ ∈ ([] : List String)) :=
  stream_json_lines_filter_sound ["error"] [] [⟨1, "error", "general"⟩]
    ⟨1, "error", "general"⟩ (by decide)

theorem bestIdx_none (ls : List (List LogRecord)) (h : bestIdx ls = none) :
    ∀ l ∈ ls, l = [] := by
  induction ls with
  | nil => intro l hl; simp at hl
  | cons l0 rest ih =>
    intro l hl
    cases l0 with
    | nil =>
      rw [bestIdx] at h
      cases hrest : bestIdx rest with
      | none =>
        rcases List.mem_cons.mp hl with h1 | h2
        · exact h1
        · exact ih (by rw [hrest]) l h2
      | some p => simp only [hrest, Option.map_some'] at h; exact absurd h (by simp)
    | cons h0 t0 =>
      rw [bestIdx] at h
      cases hrest : bestIdx rest with
      | none => simp only [hrest] at h; exact absurd h (by simp)
      | some p =>
        rcases p with ⟨j, r⟩
        simp only [hrest] at h
        by_cases hlt : r.timestamp < h0.timestamp
        · rw [if_pos hlt] at h; simp at h
        · rw [if_neg hlt] at h; simp at h

theorem bestIdx_get :
    ∀ (ls : List (List LogRecord)) (i : Nat) (r : LogRecord),
      bestIdx ls = some (i, r) → ∃ t, ls[i]? = some (r :: t) := by
  intro ls
  induction ls with
  | nil => intro i r h; rw [bestIdx] at h; simp at h
  | cons l0 rest ih =>
    intro i r h
    cases l0 with
    | nil =>
      rw [bestIdx] at h
      cases hrest : bestIdx rest with
      | none => simp only [hrest, Option.map_none'] at h; simp at h
      | some p =>
        rcases p with ⟨j, r2⟩
        simp only [hrest, Option.map_some', Option.some.injEq,
          Prod.mk.injEq] at h
        obtain ⟨hi, hr⟩ := h
        subst hi
        subst hr
        obtain ⟨t, ht⟩ := ih j r2 hrest
        exact ⟨t, by simpa using ht⟩
    | cons h0 t0 =>
      rw [bestIdx] at h
      cases hrest : bestIdx rest with
      | none =>
        simp only [hrest, Option.some.injEq, Prod.mk.injEq] at h
        obtain ⟨hi, hr⟩ := h
        subst hi
        subst hr
        exact ⟨t0, by simp⟩
      | some p =>
        rcases p with ⟨j, r2⟩
        simp only [hrest] at h
        by_cases hlt : r2.timestamp < h0.timestamp
        · rw [if_pos hlt] at h
          simp only [Option.some.injEq, Prod.mk.injEq] at h
          obtain ⟨hi, hr⟩ := h
          subst hi
          subst hr
          obtain ⟨t, ht⟩ := ih j r2 hrest
          exact ⟨t, by simpa using ht⟩
        · rw [if_neg hlt] at h
          simp only [Option.some.injEq, Prod.mk.injEq] at h
          obtain ⟨hi, hr⟩ := h
          subst hi
          subst hr
          exact ⟨t0, by simp⟩

theorem bestIdx_min :
    ∀ (ls : List (List LogRecord)) (i : Nat) (r : LogRecord),
      bestIdx ls = some (i, r) →
      ∀ l ∈ ls, ∀ hd t, l = hd :: t → r.timestamp ≤ hd.timestamp := by
  intro ls
  induction ls with
  | nil => intro i r h; rw [bestIdx] at h; simp at h
  | cons l0 rest ih =>
    intro i r h l hl hd t hlht
    cases l0 with
    | nil =>
      rw [bestIdx] at h
      cases hrest : bestIdx rest with
      | none => simp only [hrest, Option.map_none'] at h; simp at h
      | some p =>
        rcases p with ⟨j, r2⟩
        simp only [hrest, Option.map_some', Option.some.injEq,
          Prod.mk.injEq] at h
        obtain ⟨hi, hr⟩ := h
        subst hi
        subst hr
        rcases List.mem_cons.mp hl with h1 | h2
        · rw [h1] at hlht; simp at hlht
        · exact ih j r2 hrest l h2 hd t hlht
    | cons h0 t0 =>
      rw [bestIdx] at h
      cases hrest : bestIdx rest with
      | none =>
        simp only [hrest, Option.some.injEq, Prod.mk.injEq] at h
        obtain ⟨hi, hr⟩ := h
        subst hi
        subst hr
        rcases List.mem_cons.mp hl with h1 | h2
        · rw [h1] at hlht
          rw [(List.cons.injEq _ _ _ _ ▸ hlht : h0 = hd ∧ t0 = t).1]
        · have h3 := bestIdx_none rest (by rw [hrest]) l h2
          rw [h3] at hlht
          simp at hlht
      | some p =>
        rcases p with ⟨j, r2⟩
        simp only [hrest] at h
        by_cases hlt : r2.timestamp < h0.timestamp
        · rw [if_pos hlt] at h
          simp only [Option.some.injEq, Prod.mk.injEq] at h
          obtain ⟨hi, hr⟩ := h
          subst hi
          subst hr
          rcases List.mem_cons.mp hl with h1 | h2
          · rw [h1] at hlht
            have h4 : h0 = hd := (List.cons.injEq _ _ _ _ ▸ hlht : h0 = hd ∧ t0 = t).1
            rw [← h4]
            omega
          · exact ih j r2 hrest l h2 hd t hlht
        · rw [if_neg hlt] at h
          simp only [Option.some.injEq, Prod.mk.injEq] at h
          obtain ⟨hi, hr⟩ := h
          subst hi
          subst hr
          rcases List.mem_cons.mp hl with h1 | h2
          · rw [h1] at hlht
            rw [(List.cons.injEq _ _ _ _ ▸ hlht : h0 = hd ∧ t0 = t).1]
          · have h3 := ih j r2 hrest l h2 hd t hlht
            omega

theorem removeHead_join_perm :
    ∀ (ls : List (List LogRecord)) (i : Nat) (r : LogRecord)
      (t : List LogRecord), ls[i]? = some (r :: t) →
      ls.flatten.Perm (r :: (removeHead i ls).flatten) := by
  intro ls
  induction ls with
  | nil => intro i r t h; simp at h
  | cons l rest ih =>
    intro i r t h
    cases i with
    | zero =>
      simp only [List.getElem?_cons_zero, Option.some.injEq] at h
      rw [h, removeHead]
      simp only [List.flatten_cons, List.tail_cons, List.cons_append]
      exact List.Perm.refl _
    | succ j =>
      simp only [List.getElem?_cons_succ] at h
      rw [removeHead]
      simp only [List.flatten_cons]
      have hp := ih j r t h
      exact (List.Perm.append_left l hp).trans List.perm_middle

theorem sumLen_removeHead :
    ∀ (ls : List (List LogRecord)) (i : Nat) (r : LogRecord)
      (t : List LogRecord), ls[i]? = some (r :: t) →
      sumLen (removeHead i ls) + 1 = sumLen ls := by
  intro ls
  induction ls with
  | nil => intro i r t h; simp at h
  | cons l rest ih =>
    intro i r t h
    cases i with
    | zero =>
      simp only [List.getElem?_cons_zero, Option.some.injEq] at h
      rw [h, removeHead]
      simp [sumLen]
      omega
    | succ j =>
      simp only [List.getElem?_cons_succ] at h
      rw [removeHead]
      have := ih j r t h
      simp [sumLen] at this ⊢
      omega

theorem mem_removeHead :
    ∀ (ls : List (List LogRecord)) (i : Nat) (l : List LogRecord),
      l ∈ removeHead i ls → l ∈ ls ∨ ∃ l2 ∈ ls, l = l2.tail := by
  intro ls
  induction ls with
  | nil => intro i l h; rw [removeHead] at h; simp at h
  | cons l0 rest ih =>
    intro i l h
    cases i with
    | zero =>
      rw [removeHead] at h
      rcases List.mem_cons.mp h with h1 | h2
      · exact Or.inr ⟨l0, List.mem_cons_self _ _, h1⟩
      · exact Or.inl (List.mem_cons_of_mem _ h2)
    | succ j =>
      rw [removeHead] at h
      rcases List.mem_cons.mp h with h1 | h2
      · exact Or.inl (h1 ▸ List.mem_cons_self _ _)
      · rcases ih j l h2 with h3 | ⟨l2, hl2, he⟩
        · exact Or.inl (List.mem_cons_of_mem _ h3)
        · exact Or.inr ⟨l2, List.mem_cons_of_mem _ hl2, he⟩

theorem removeHead_flatten_subset (ls : List (List LogRecord)) (i : Nat)
    (x : LogRecord) (hx : x ∈ (removeHead i ls).flatten) :
    x ∈ ls.flatten := by
  obtain ⟨l, hl, hxl⟩ := List.mem_flatten.mp hx
  rcases mem_removeHead ls i l hl with h1 | ⟨l2, hl2, he⟩
  · exact List.mem_flatten_of_mem h1 hxl
  · exact List.mem_flatten_of_mem hl2 (List.mem_of_mem_tail (he ▸ hxl))

theorem flatten_eq_nil_of_bestIdx_none (ls : List (List LogRecord))
    (h : bestIdx ls = none) : ls.flatten = [] := by
  have hall := bestIdx_none ls h
  rw [List.flatten_eq_nil_iff]
  exact hall

theorem mergeAllGo_perm :
    ∀ (fuel : Nat) (ls : List (List LogRecord)), sumLen ls ≤ fuel →
      (mergeAllGo fuel ls).Perm ls.flatten := by
  intro fuel
  induction fuel with
  | zero =>
    intro ls h
    rw [mergeAllGo]
    have h0 : ls.flatten.length = 0 := by
      rw [List.length_flatten]
      have : sumLen ls = 0 := by omega
      exact this
    rw [List.eq_nil_of_length_eq_zero h0]
  | succ n ih =>
    intro ls h
    cases hb : bestIdx ls with
    | none =>
      simp only [mergeAllGo, hb]
      rw [flatten_eq_nil_of_bestIdx_none ls hb]
    | some p =>
      rcases p with ⟨i, r⟩
      simp only [mergeAllGo, hb]
      obtain ⟨t, ht⟩ := bestIdx_get ls i r hb
      have hsum := sumLen_removeHead ls i r t ht
      have hrec := ih (removeHead i ls) (by omega)
      exact ((hrec.cons r).trans (removeHead_join_perm ls i r t ht).symm)

theorem mergeAllGo_sorted :
    ∀ (fuel : Nat) (ls : List (List LogRecord)), sumLen ls ≤ fuel →
      (∀ l ∈ ls, l.Pairwise tsLE) →
      (mergeAllGo fuel ls).Pairwise tsLE := by
  intro fuel
  induction fuel with
  | zero => intro ls h hs; rw [mergeAllGo]; exact List.Pairwise.nil
  | succ n ih =>
    intro ls h hs
    cases hb : bestIdx ls with
    | none => simp only [mergeAllGo, hb]; exact List.Pairwise.nil
    | some p =>
      rcases p with ⟨i, r⟩
      simp only [mergeAllGo, hb]
      obtain ⟨t, ht⟩ := bestIdx_get ls i r hb
      have hsum := sumLen_removeHead ls i r t ht
      have hsorted2 : ∀ l ∈ removeHead i ls, l.Pairwise tsLE := by
        intro l hl
        rcases mem_removeHead ls i l hl with h1 | ⟨l2, hl2, he⟩
        · exact hs l h1
        · exact he ▸ (hs l2 hl2).tail
      refine List.pairwise_cons.mpr ⟨?_, ih _ (by omega) hsorted2⟩
      intro x hx
      have hxflat : x ∈ (removeHead i ls).flatten :=
        (mergeAllGo_perm n (removeHead i ls) (by omega)).subset hx
      have hxls : x ∈ ls.flatten := removeHead_flatten_subset ls i x hxflat
      obtain ⟨l, hlin, hxin⟩ := List.mem_flatten.mp hxls
      cases l with
      | nil => simp at hxin
      | cons hd t2 =>
        have h1 : r.timestamp ≤ hd.timestamp :=
          bestIdx_min ls i r hb _ hlin hd t2 rfl
        rcases List.mem_cons.mp hxin with h2 | h2
        · show r.timestamp ≤ x.timestamp
          rw [h2]
          exact h1
        · have h3 : tsLE hd x := (List.pairwise_cons.mp (hs _ hlin)).1 x h2
          show r.timestamp ≤ x.timestamp
          exact Nat.le_trans h1 h3

/-- C1: if every per-WACZ source stream is non-decreasing in timestamp,
the merged, filtered stream produced by `_sync_get_logs` is globally
non-decreasing in timestamp and is a permutation of (contains exactly,
with multiplicity — no duplication, no loss) the concatenation of all
input records that pass the level/context filters. -/
theorem sync_get_logs_sorted_and_complete
    (log_generators : List (List LogRecord))
    (log_levels contexts : List String)
    (hsorted : ∀ l ∈ log_generators, l.Pairwise tsLE) :
    (sync_get_logs log_generators log_levels contexts).Pairwise tsLE ∧
    (sync_get_logs log_generators log_levels contexts).Perm
      (log_generators.flatten.filter (passes_filters log_levels contexts)) := by
  have h1 : sync_get_logs log_generators log_levels contexts
      = (mergeAllGo (sumLen log_generators) log_generators).filter
          (passes_filters log_levels contexts) := rfl
  rw [h1]
  constructor
  · exact (mergeAllGo_sorted _ _ (Nat.le_refl _) hsorted).filter _
  · exact (mergeAllGo_perm _ _ (Nat.le_refl _)).filter _

/-- Witness for C1: two sorted sources with interleaved timestamps and
a level filter; the merged output is sorted and is exactly the filtered
union. -/
theorem sync_get_logs_sorted_and_complete_witness :
    (sync_get_logs
        [[⟨1, "info", "g"⟩, ⟨3, "error", "g"⟩], [⟨2, "error", "h"⟩]]
        ["error"] []).Pairwise tsLE ∧
    (sync_get_logs
        [[⟨1, "info", "g"⟩, ⟨3, "error", "g"⟩], [⟨2, "error", "h"⟩]]
        ["error"] []).Perm
      (([[⟨1, "info", "g"⟩, ⟨3, "error", "g"⟩],
         [⟨2, "error", "h"⟩]] : List (List LogRecord)).flatten.filter
        (passes_filters ["error"] [])) :=
  sync_get_logs_sorted_and_complete
    [[⟨1, "info", "g"⟩, ⟨3, "error", "g"⟩], [⟨2, "error", "h"⟩]]
    ["error"] [] (by decide)

/-! Lemmas about `splitLines` and the chunked line streaming. -/

/-- Prepend a (newline-free) prefix onto the first piece of a split. -/
def glueHead (x : List Char) : List (List Char) → List (List Char)
  | [] => [x]
  | h :: t => (x ++ h) :: t

theorem splitLines_ne_nil : ∀ (cs : List Char), splitLines cs ≠ [] := by
  intro cs
  induction cs with
  | nil => simp [splitLines]
  | cons c cs ih =>
    rw [splitLines]
    by_cases hc : c = '\n'
    · simp [hc]
    · rw [if_neg hc]
      cases hs : splitLines cs with
      | nil => simp
      | cons l ls => simp

theorem splitLines_no_newline :
    ∀ (cs : List Char), ∀ l ∈ splitLines cs, '\n' ∉ l := by
  intro cs
  induction cs with
  | nil =>
    intro l hl
    rw [splitLines] at hl
    simp at hl
    simp [hl]
  | cons c cs ih =>
    intro l hl
    rw [splitLines] at hl
    by_cases hc : c = '\n'
    · rw [if_pos hc] at hl
      rcases List.mem_cons.mp hl with h1 | h2
      · simp [h1]
      · exact ih l h2
    · rw [if_neg hc] at hl
      cases hs : splitLines cs with
      | nil => exact absurd hs (splitLines_ne_nil cs)
      | cons p ps =>
        rw [hs] at hl
        rcases List.mem_cons.mp hl with h1 | h2
        · rw [h1]
          intro hmem
          rcases List.mem_cons.mp hmem with h3 | h4
          · exact hc h3.symm
          · exact ih p (hs ▸ List.mem_cons_self _ _) h4
        · exact ih l (hs ▸ List.mem_cons_of_mem _ h2)

theorem popLastLine_snd_mem :
    ∀ (s : List (List Char)), s ≠ [] → (popLastLine s).2 ∈ s := by
  intro s
  induction s with
  | nil => intro h; exact absurd rfl h
  | cons x t ih =>
    intro _
    cases t with
    | nil => rw [popLastLine]; simp
    | cons y t2 =>
      rw [popLastLine]
      exact List.mem_cons_of_mem _ (ih (by simp))

theorem splitLines_append :
    ∀ (a b : List Char),
      splitLines (a ++ b)
        = (popLastLine (splitLines a)).1
          ++ glueHead (popLastLine (splitLines a)).2 (splitLines b) := by
  intro a b
  induction a with
  | nil =>
    rw [List.nil_append]
    rw [show splitLines ([] : List Char) = [[]] from rfl]
    rw [show popLastLine [([] : List Char)] = ([], []) from rfl]
    cases hsb : splitLines b with
    | nil => exact absurd hsb (splitLines_ne_nil b)
    | cons hb tb => rw [glueHead]; simp
  | cons c a' ih =>
    by_cases hc : c = '\n'
    · subst hc
      rw [List.cons_append, splitLines, if_pos rfl, ih]
      rw [splitLines, if_pos rfl]
      cases hsa : splitLines a' with
      | nil => exact absurd hsa (splitLines_ne_nil a')
      | cons y t =>
        cases t with
        | nil =>
          simp only [popLastLine, glueHead]
          simp
        | cons z t2 =>
          simp only [popLastLine, glueHead]
          simp
    · rw [List.cons_append, splitLines, if_neg hc, ih]
      rw [splitLines, if_neg hc]
      cases hsa : splitLines a' with
      | nil => exact absurd hsa (splitLines_ne_nil a')
      | cons y t =>
        cases hsb : splitLines b with
        | nil => exact absurd hsb (splitLines_ne_nil b)
        | cons hb tb =>
          cases t with
          | nil =>
            simp only [popLastLine, glueHead]
            simp
          | cons z t2 =>
            simp only [popLastLine, glueHead]
            cases hp : popLastLine (z :: t2) with
            | mk p1 p2 =>
              simp only [glueHead]
              simp

theorem splitLines_of_no_newline :
    ∀ (p : List Char), '\n' ∉ p → splitLines p = [p] := by
  intro p
  induction p with
  | nil => intro _; rfl
  | cons c p' ih =>
    intro h
    have hc : ¬ c = '\n' := fun he => h (he ▸ List.mem_cons_self _ _)
    rw [splitLines, if_neg hc, ih (fun hm => h (List.mem_cons_of_mem _ hm))]

theorem glue_splitLines (p x : List Char) (h : '\n' ∉ p) :
    splitLines (p ++ x) = glueHead p (splitLines x) := by
  rw [splitLines_append p x, splitLines_of_no_newline p h]
  rw [show popLastLine [p] = ([], p) from rfl]
  rw [List.nil_append]

theorem stream_chars_eq {α : Type} (parse : List Char → Option α) :
    ∀ (chunks : List (List Char)) (last_line : List Char),
      '\n' ∉ last_line →
      stream_log_bytes_as_line_dicts parse chunks last_line
        = (splitLines (last_line ++ chunks.flatten)).filterMap
            (fun line => if line.isEmpty then none else parse line) := by
  intro chunks
  induction chunks with
  | nil =>
    intro last_line h
    simp only [stream_log_bytes_as_line_dicts]
    rw [List.flatten_nil, List.append_nil, splitLines_of_no_newline _ h]
    by_cases he : last_line.isEmpty
    · have hl := List.isEmpty_iff.mp he
      subst hl
      rfl
    · rw [if_neg he]
      have hne : ¬ last_line = [] := fun hl => he (by simp [hl])
      cases hp : parse last_line <;>
        simp [List.filterMap_cons, he, hne, hp]
  | cons chunk rest ih =>
    intro last_line h
    simp only [stream_log_bytes_as_line_dicts]
    have hmem : (popLastLine (splitLines (last_line ++ chunk))).2
        ∈ splitLines (last_line ++ chunk) :=
      popLastLine_snd_mem _ (splitLines_ne_nil _)
    have hnn : '\n' ∉ (popLastLine (splitLines (last_line ++ chunk))).2 :=
      splitLines_no_newline _ _ hmem
    rw [ih _ hnn]
    rw [List.flatten_cons, ← List.append_assoc]
    rw [splitLines_append (last_line ++ chunk) rest.flatten]
    rw [List.filterMap_append]
    rw [glue_splitLines _ _ hnn]

/-- C9: chunk-boundary and error tolerance of the incremental JSON-lines
decoder.  Streaming the chunks through `stream_log_bytes_as_line_dicts`
(holding a partial trailing line across chunk boundaries, dropping lines
`parse` rejects, and parsing any remaining non-empty partial line at
stream end) yields exactly the `parse` successes of the non-empty lines
of the whole concatenated input, no matter how it was chunked. -/
theorem stream_log_bytes_chunking_spec {α : Type}
    (parse : List Char → Option α) (chunks : List (List Char)) :
    stream_log_bytes_as_line_dicts parse chunks []
      = (splitLines chunks.flatten).filterMap
          (fun line => if line.isEmpty then none else parse line) := by
  rw [stream_chars_eq parse chunks [] (by simp)]
  rw [List.nil_append]

/-- C4: `_sync_dl` emits the given members first, in order, followed by
exactly one final synthetic `datapackage.json` member whose content is
the JSON document with `"profile" = "multi-wacz-package"` and a
`"resources"` array holding, for each member, an object with that
member's name, path (set to its name by the `file_.path = file_.name`
mutation), hash and size (plus the serialized `crawlId` field of the
pydantic model). -/
theorem sync_dl_members_and_manifest (all_files : List CrawlFileOut) :
    (sync_dl all_files).map ZipMember.name
      = all_files.map CrawlFileOut.name ++ ["datapackage.json"] ∧
    ∃ resources : List Json,
      (sync_dl all_files).getLast? = some
        { name := "datapackage.json", modified_at := (1980, 1, 1),
          perms := 0o664,
          source := MemberSource.manifest (Json.obj
            [("profile", Json.str "multi-wacz-package"),
             ("resources", Json.arr resources)]) } ∧
      resources.length = all_files.length ∧
      (∀ (i : Nat) (f : CrawlFileOut), all_files[i]? = some f →
        resources[i]? = some (Json.obj
          [("name", Json.str f.name), ("path", Json.str f.name),
           ("hash", Json.str f.hash), ("size", Json.num f.size),
           ("crawlId", jsonOfOptStr f.crawlId)])) := by
  refine ⟨?_, (all_files.map set_path).map crawlFileDict, ?_, ?_, ?_⟩
  · simp [sync_dl, member_files, set_path]
  · have h1 : sync_dl all_files
        = ((all_files.map set_path).map fun f =>
            ({ name := f.name, modified_at := (1980, 1, 1), perms := 0o664,
               source := MemberSource.remote f.name } : ZipMember)) ++
          [{ name := "datapackage.json", modified_at := (1980, 1, 1),
             perms := 0o664,
             source := MemberSource.manifest
               (datapackage (all_files.map set_path)) }] := rfl
    rw [h1, List.getLast?_concat]
    rfl
  · simp
  · intro i f hf
    rw [List.getElem?_map, List.getElem?_map, hf]
    rfl
